import Mathlib

/-! # StratumBeam.hpp (tools/sharelog_to_parquet)

A shallow embedding of `BeamDifficulty`, `ShareBeam` and
`ParquetWriterT<ShareBeam>`.

Conventions of the embedding

* `uint32_t`, `int32_t`, `int64_t`, `size_t` values are natural numbers or
  integers; a conversion or an arithmetic step that can wrap is written with
  an explicit modulus (`toInt32`, `% 2 ^ 32`, `% 2 ^ 64`).
* A `double` is the rational number it denotes.  Every double built here is
  finite; `isBinary64` says that a rational is a binary64 value.
* A C++ exception or an access outside a buffer is a `Fault` in `Except`.
* `this` and reference parameters are passed and returned explicitly.
-/

set_option autoImplicit false

namespace StratumBeam

/-! ## Machine integers, bytes, doubles -/

/-- One byte of memory. -/
abbrev Byte := Fin 256

/-- Ways in which a call can fail to return normally. -/
inductive Fault where
  /-- The exception `uint_error("Division by zero")` of the 256-bit division. -/
  | divisionByZero
  /-- A read or a write outside the memory of a buffer. -/
  | outOfBounds
deriving DecidableEq, Repr

deriving instance DecidableEq for Except

/-- Conversion of an unsigned value to `int` (two's complement, 32 bits). -/
def toInt32 (n : Nat) : Int :=
  if n % 2 ^ 32 < 2 ^ 31 then ((n % 2 ^ 32 : Nat) : Int)
  else ((n % 2 ^ 32 : Nat) : Int) - 2 ^ 32

/-- The value of a `double`. -/
abbrev Double := ℚ

/-- A rational number that is a finite IEEE-754 binary64 value: an integer
significand below `2 ^ 53` in magnitude times a power of two in the binary64
exponent range. -/
def isBinary64 (q : ℚ) : Prop :=
  ∃ m e : Int, |m| < 2 ^ 53 ∧ -1074 ≤ e ∧ e ≤ 971 ∧ q = (m : ℚ) * (2 : ℚ) ^ e

/-- The C library function `ldexp(x, e)`: `x * 2 ^ e`.  It is exact whenever the
product is a binary64 value, which is the case at its only call site: there
the significand is below `2 ^ 25` and the exponent lies in `-24..231`. -/
def ldexp (x : Double) (e : Int) : Double := x * (2 : ℚ) ^ e

/-- The four bytes of a `uint32_t` in memory (little-endian host). -/
def le32 (v : Nat) : List Byte :=
  [Fin.ofNat v, Fin.ofNat (v / 2 ^ 8), Fin.ofNat (v / 2 ^ 16), Fin.ofNat (v / 2 ^ 24)]

/-- The read `*((uint32_t *)p)` of four bytes at the start of the memory `mem`. -/
def readU32 (mem : List Byte) : Except Fault Nat :=
  match mem with
  | b0 :: b1 :: b2 :: b3 :: _ =>
    .ok (b0.val + 2 ^ 8 * b1.val + 2 ^ 16 * b2.val + 2 ^ 24 * b3.val)
  | _ => .error .outOfBounds

/-- The call `data.resize(n)` of `std::string`: keeps the first `n` bytes and
pads with zero bytes. -/
def resize (data : List Byte) (n : Nat) : List Byte :=
  data.take n ++ List.replicate (n - data.length) 0

/-- Overwrites the bytes of `data` from offset `off` on with `bytes`. -/
def writeAt (data : List Byte) (off : Nat) (bytes : List Byte) : List Byte :=
  data.take off ++ bytes ++ data.drop (off + bytes.length)

/-! ## arith_uint256 -/

namespace arith_uint256

/-- Modelled from the spec: `arith_uint256.h` is not among the sources.
`a << shift` on 256-bit unsigned integers. -/
def shl (a shift : Nat) : Nat := (a * 2 ^ shift) % 2 ^ 256

/-- Modelled from the spec: `arith_uint256.h` is not among the sources.
`a - b` on 256-bit unsigned integers (wraps modulo `2 ^ 256`). -/
def sub (a b : Nat) : Nat := (a + (2 ^ 256 - b % 2 ^ 256)) % 2 ^ 256

/-- Modelled from the spec: `arith_uint256.h` is not among the sources.
`a / b`, the "exact unsigned 256-bit integer division"; a zero divisor throws. -/
def div (a b : Nat) : Except Fault Nat :=
  if b = 0 then .error .divisionByZero else .ok (a / b)

/-- Modelled from the spec: `arith_uint256.h` is not among the sources.
`SetCompact`, the "standard base-256 compact encoding of a 256-bit target
(1 exponent byte + 3 mantissa bytes)": the size byte `nCompact >> 24` and the
23-bit word `nCompact & 0x007fffff`, shifted right by whole bytes when the
size is at most 3 and left (within 256 bits) otherwise. -/
def SetCompact (nCompact : Nat) : Nat :=
  let nSize := nCompact >>> 24
  let nWord := nCompact &&& 0x007fffff
  if nSize ≤ 3 then nWord >>> (8 * (3 - nSize))
  else shl nWord (8 * (nSize - 3))

/-- Number of binary digits of `n`, for `n < 2 ^ fuel`. -/
def bitLength : Nat → Nat → Nat
  | 0, _ => 0
  | fuel + 1, n => if n = 0 then 0 else bitLength fuel (n / 2) + 1

/-- Rounding of a natural number below `2 ^ 1024` to the nearest binary64
value, ties to even. -/
def roundBinary64 (n : Nat) : Nat :=
  let b := bitLength 1024 n
  if b ≤ 53 then n
  else
    let s := b - 53
    let q := n / 2 ^ s
    let r := n % 2 ^ s
    let half := 2 ^ (s - 1)
    if half < r ∨ (r = half ∧ q % 2 = 1) then (q + 1) * 2 ^ s else q * 2 ^ s

/-- Modelled from the spec: `arith_uint256.h` is not among the sources.
`getdouble`, the value "converted to double": the eight 32-bit limbs are
accumulated from the lowest one, `ret += fact * pn[i]`, each sum rounded to
binary64. -/
def getdouble (a : Nat) : Double :=
  (((List.range 8).foldl
      (fun ret i => roundBinary64 (ret + 2 ^ (32 * i) * (a / 2 ^ (32 * i) % 2 ^ 32))) 0 : Nat) : ℚ)

end arith_uint256

/-! ## BeamDifficulty -/

namespace BeamDifficulty

/-- `Unpack(packed, order, mantissa)`: the two outputs as a pair. -/
def Unpack (packed : Nat) : Nat × Nat :=
  let order := packed >>> 24
  let nLeadingBit := 1 <<< 24
  let mantissa := nLeadingBit ||| (packed &&& (nLeadingBit - 1))
  (order, mantissa)

/-- `BeamBitsToDifficulty(beamBits)`.  `order - 24` is computed on `uint32_t`
and converted to `int`. -/
def BeamBitsToDifficulty (beamBits : Nat) : Double :=
  if beamBits = 0 then 0
  else
    let (order, mantissa) := Unpack beamBits
    let nOrderCorrected : Int := toInt32 ((order + (2 ^ 32 - 24)) % 2 ^ 32)
    ldexp (mantissa : ℚ) nOrderCorrected

/-- The static local `kMaxUint256` of `BitcoinStyleBitsToDifficulty`, built from
sixty-four hexadecimal digits `f`. -/
def kMaxUint256 : Nat :=
  0xffffffffffffffffffffffffffffffffffffffffffffffffffffffffffffffff

/-- `BitcoinStyleBitsToDifficulty(bitcoinStyleBits)`. -/
def BitcoinStyleBitsToDifficulty (bitcoinStyleBits : Nat) : Except Fault Double :=
  if bitcoinStyleBits = 0 then .ok 0
  else if bitcoinStyleBits ≤ 0xff then
    let target := arith_uint256.sub (arith_uint256.shl 1 bitcoinStyleBits) 1
    (arith_uint256.div kMaxUint256 target).map arith_uint256.getdouble
  else
    let target := arith_uint256.SetCompact bitcoinStyleBits
    (arith_uint256.div kMaxUint256 target).map arith_uint256.getdouble

end BeamDifficulty

/-! ## ShareBeam -/

/-- The fields of `sharebase::BeamMsg`, which `ShareBeam` inherits, under the
names of their accessors. -/
structure ShareBeam where
  version : Nat
  workerhashid : Int
  userid : Int
  status : Int
  timestamp : Int
  ip : String
  inputprefix : Int
  sharediff : Int
  blockbits : Nat
  height : Int
  nonce : Int
  sessionid : Int
  outputhash : Int
  extuserid : Int
  bitsreached : Nat
deriving DecidableEq, Repr

/-- The generated protobuf code of `sharebase::BeamMsg` (`beam/beam.pb.h`),
taken as a parameter.

* `ByteSize m` is the length of the structured payload of `m`;
* `SerializeToArray m size` is the payload written into a region of `size`
  bytes, or `none` when the call returns `false`;
* `ParseFromArray mem size` is called with the memory at the payload pointer
  and the `int` length; it gives the returned flag and the message left in
  `this`. -/
structure Protobuf where
  ByteSize : ShareBeam → Nat
  SerializeToArray : ShareBeam → Nat → Option (List Byte)
  ParseFromArray : List Byte → Int → Bool × ShareBeam

namespace ShareBeam

/-- `ShareBeam::CURRENT_VERSION`. -/
def CURRENT_VERSION : Nat := 0x0bea0001

/-- The constructor `ShareBeam()`; the fields it does not set have the protobuf
default `0`. -/
def new : ShareBeam :=
  { version := 0, workerhashid := 0, userid := 0, status := 0, timestamp := 0,
    ip := "0.0.0.0", inputprefix := 0, sharediff := 0, blockbits := 0, height := 0,
    nonce := 0, sessionid := 0, outputhash := 0, extuserid := 0, bitsreached := 0 }

/-- `SerializeToBuffer(data, size)`: the returned flag, `data` and `size`. -/
def SerializeToBuffer (P : Protobuf) (self : ShareBeam) (data : List Byte) :
    Bool × List Byte × Nat :=
  let size := P.ByteSize self % 2 ^ 32
  let data := resize data size
  match P.SerializeToArray self size with
  | none => (false, data, size)
  | some payload => (true, writeAt data 0 payload, size)

/-- `UnserializeWithVersion(data, size)`: the returned flag and the new `this`.
`data = none` is the null pointer, `data = some mem` a pointer to the memory
`mem`.  The length passed on is `size - sizeof(uint32_t)`, computed on
`size_t` and converted to `int`. -/
def UnserializeWithVersion (P : Protobuf) (self : ShareBeam) (data : Option (List Byte))
    (size : Nat) : Except Fault (Bool × ShareBeam) :=
  match data with
  | none => .ok (false, self)
  | some payload =>
    if size ≤ 0 then .ok (false, self)
    else
      match readU32 payload with
      | .error e => .error e
      | .ok version =>
        if version = CURRENT_VERSION then
          match P.ParseFromArray (payload.drop 4) (toInt32 ((size + (2 ^ 64 - 4)) % 2 ^ 64)) with
          | (false, parsed) => .ok (false, parsed)
          | (true, parsed) => .ok (true, parsed)
        else .ok (false, self)

/-- `SerializeToArrayWithLength(data, size)`: the returned flag, `data` and
`size`. -/
def SerializeToArrayWithLength (P : Protobuf) (self : ShareBeam) (data : List Byte) :
    Bool × List Byte × Nat :=
  let size := P.ByteSize self % 2 ^ 32
  let data := resize data (size + 4)
  let data := writeAt data 0 (le32 size)
  match P.SerializeToArray self size with
  | none => (false, data, size)
  | some payload => (true, writeAt data 4 payload, (size + 4) % 2 ^ 32)

/-- `SerializeToArrayWithVersion(data, size)`: the returned flag, `data` and
`size`. -/
def SerializeToArrayWithVersion (P : Protobuf) (self : ShareBeam) (data : List Byte) :
    Bool × List Byte × Nat :=
  let size := P.ByteSize self % 2 ^ 32
  let data := resize data (size + 4)
  let data := writeAt data 0 (le32 self.version)
  match P.SerializeToArray self size with
  | none => (false, data, size)
  | some payload => (true, writeAt data 4 payload, (size + 4) % 2 ^ 32)

end ShareBeam

/-! ## ParquetWriterT<ShareBeam> -/

/-- One value of a column. -/
inductive Cell where
  | int64 (v : Int)
  | int32 (v : Int)
  | byteArray (v : String)
  | double (v : Double)
deriving DecidableEq, Repr

/-- The values handed to a typed column writer (`parquet::Int64Writer`,
`Int32Writer`, `ByteArrayWriter`, `DoubleWriter`). -/
inductive Values where
  | int64 (values : List Int)
  | int32 (values : List Int)
  | byteArray (values : List String)
  | double (values : List Double)
deriving DecidableEq, Repr

/-- One call `WriteBatch(num_values, nullptr, nullptr, values)` on the next
column of a row group: the count passed and the values read from the buffer. -/
structure WriteBatch where
  num_values : Nat
  values : Values
deriving DecidableEq, Repr

/-- A row group: its column writes in the order of the `NextColumn()` calls. -/
abbrev RowGroup := List WriteBatch

/-- The physical and logical type of a schema node. -/
inductive ColumnType where
  | INT64
  | INT32
  | BYTE_ARRAY_UTF8
  | DOUBLE
deriving DecidableEq, Repr

/-- The value at row `i` of a column. -/
def Values.cell? : Values → Nat → Option Cell
  | .int64 values, i => values[i]?.map Cell.int64
  | .int32 values, i => values[i]?.map Cell.int32
  | .byteArray values, i => values[i]?.map Cell.byteArray
  | .double values, i => values[i]?.map Cell.double

/-- The number of values of a column. -/
def Values.length : Values → Nat
  | .int64 values => values.length
  | .int32 values => values.length
  | .byteArray values => values.length
  | .double values => values.length

/-- The writer type a column was written with. -/
def Values.type : Values → ColumnType
  | .int64 _ => .INT64
  | .int32 _ => .INT32
  | .byteArray _ => .BYTE_ARRAY_UTF8
  | .double _ => .DOUBLE

/-- Number of rows of a row group: the count of its first column write. -/
def RowGroup.numRows (g : RowGroup) : Nat :=
  match g with
  | [] => 0
  | c :: _ => c.num_values

/-- The rows of a row group as a reader sees them: row `i` holds the `i`-th
value of every column, in column order. -/
def RowGroup.rows (g : RowGroup) : List (List Cell) :=
  (List.range g.numRows).map (fun i => g.filterMap (fun c => c.values.cell? i))

/-- The table stored in a file: the rows of its row groups, concatenated. -/
def fileRows (file : List RowGroup) : List (List Cell) :=
  file.flatMap RowGroup.rows

/-- Modelled from the spec: the base class `ParquetWriter` is not among the
sources.  Its members used by the writer are `DEFAULT_NUM_ROWS_PER_ROW_GROUP`
(the "fixed configuration constant (the rows per row group)"), `fileWriter_`
(shown as the row groups appended to the output file so far), `index_` (the
"monotonically increasing globalIndex counter") and `shareNum_` (the slot
cursor).  The counter `index_` is an integer without wrap-around: it starts at
0 and grows by one per call of `addShare`, so it stays far below `2 ^ 63`. -/
structure ParquetWriter where
  DEFAULT_NUM_ROWS_PER_ROW_GROUP : Nat
  fileWriter_ : List RowGroup
  index_ : Int
  shareNum_ : Nat
deriving DecidableEq, Repr

/-- The class `ParquetWriterT<ShareBeam>`: the base object and the sixteen
column buffers.  `ip_[i]` points to the bytes of `ipStr_[i]` and is shown as
that text. -/
structure ParquetWriterT extends ParquetWriter where
  indexs_ : List Int
  workerIds_ : List Int
  userIds_ : List Int
  status_ : List Int
  timestamps_ : List Int
  ip_ : List String
  ipStr_ : List String
  jobIds_ : List Int
  shareDiff_ : List Int
  networkDiff_ : List Double
  height_ : List Int
  nonce_ : List Int
  sessionId_ : List Int
  outputHash_ : List Int
  extUserId_ : List Int
  diffReached_ : List Double
deriving DecidableEq, Repr

/-- The assignment `buf[i] = v` into a fixed-size array. -/
def store {α : Type} (buf : List α) (i : Nat) (v : α) : Except Fault (List α) :=
  if i < buf.length then .ok (buf.set i v) else .error .outOfBounds

namespace ParquetWriterT

/-- The constructor `ParquetWriterT()` on a base object with counters `0` and
an empty output file: sixteen arrays of `DEFAULT_NUM_ROWS_PER_ROW_GROUP`
elements (their initial contents are never read). -/
def new (capacity : Nat) : ParquetWriterT :=
  { DEFAULT_NUM_ROWS_PER_ROW_GROUP := capacity
    fileWriter_ := []
    index_ := 0
    shareNum_ := 0
    indexs_ := List.replicate capacity 0
    workerIds_ := List.replicate capacity 0
    userIds_ := List.replicate capacity 0
    status_ := List.replicate capacity 0
    timestamps_ := List.replicate capacity 0
    ip_ := List.replicate capacity ""
    ipStr_ := List.replicate capacity ""
    jobIds_ := List.replicate capacity 0
    shareDiff_ := List.replicate capacity 0
    networkDiff_ := List.replicate capacity 0
    height_ := List.replicate capacity 0
    nonce_ := List.replicate capacity 0
    sessionId_ := List.replicate capacity 0
    outputHash_ := List.replicate capacity 0
    extUserId_ := List.replicate capacity 0
    diffReached_ := List.replicate capacity 0 }

/-- `setupSchema()`: the fields of the group node `share_beam`, in order. -/
def setupSchema : List (String × ColumnType) :=
  [("index", .INT64), ("worker_id", .INT64), ("user_id", .INT32), ("status", .INT32),
   ("timestamp", .INT64), ("ip", .BYTE_ARRAY_UTF8), ("job_id", .INT64),
   ("share_diff", .INT64), ("network_diff", .DOUBLE), ("height", .INT32),
   ("nonce", .INT64), ("session_id", .INT32), ("output_hash", .INT32),
   ("ext_user_id", .INT32), ("diff_reached", .DOUBLE)]

/-- `flushShares()`: appends one row group, writes `shareNum_` values of each
of the fifteen column buffers to it, closes it and resets `shareNum_`. -/
def flushShares (w : ParquetWriterT) : ParquetWriterT :=
  let n := w.shareNum_
  let rgWriter : RowGroup :=
    [ ⟨n, .int64 (w.indexs_.take n)⟩,
      ⟨n, .int64 (w.workerIds_.take n)⟩,
      ⟨n, .int32 (w.userIds_.take n)⟩,
      ⟨n, .int32 (w.status_.take n)⟩,
      ⟨n, .int64 (w.timestamps_.take n)⟩,
      ⟨n, .byteArray (w.ip_.take n)⟩,
      ⟨n, .int64 (w.jobIds_.take n)⟩,
      ⟨n, .int64 (w.shareDiff_.take n)⟩,
      ⟨n, .double (w.networkDiff_.take n)⟩,
      ⟨n, .int32 (w.height_.take n)⟩,
      ⟨n, .int64 (w.nonce_.take n)⟩,
      ⟨n, .int32 (w.sessionId_.take n)⟩,
      ⟨n, .int32 (w.outputHash_.take n)⟩,
      ⟨n, .int32 (w.extUserId_.take n)⟩,
      ⟨n, .double (w.diffReached_.take n)⟩ ]
  { w with fileWriter_ := w.fileWriter_ ++ [rgWriter], shareNum_ := 0 }

/-- `addShare(share)`.  The call `ipAddr.fromString(share.ip())` on the static
local `ipAddr` has no effect on the writer and is left out. -/
def addShare (w : ParquetWriterT) (share : ShareBeam) : Except Fault ParquetWriterT := do
  let index_ := w.index_ + 1
  let indexs_ ← store w.indexs_ w.shareNum_ index_
  let workerIds_ ← store w.workerIds_ w.shareNum_ share.workerhashid
  let userIds_ ← store w.userIds_ w.shareNum_ share.userid
  let status_ ← store w.status_ w.shareNum_ share.status
  let timestamps_ ← store w.timestamps_ w.shareNum_ share.timestamp
  let ipStr_ ← store w.ipStr_ w.shareNum_ share.ip
  let ip_ ← store w.ip_ w.shareNum_ share.ip
  let jobIds_ ← store w.jobIds_ w.shareNum_ share.inputprefix
  let shareDiff_ ← store w.shareDiff_ w.shareNum_ share.sharediff
  let networkDiff_ ← store w.networkDiff_ w.shareNum_
    (BeamDifficulty.BeamBitsToDifficulty share.blockbits)
  let height_ ← store w.height_ w.shareNum_ share.height
  let nonce_ ← store w.nonce_ w.shareNum_ share.nonce
  let sessionId_ ← store w.sessionId_ w.shareNum_ share.sessionid
  let outputHash_ ← store w.outputHash_ w.shareNum_ share.outputhash
  let extUserId_ ← store w.extUserId_ w.shareNum_ share.extuserid
  let diffReached ← BeamDifficulty.BitcoinStyleBitsToDifficulty share.bitsreached
  let diffReached_ ← store w.diffReached_ w.shareNum_ diffReached
  let w1 : ParquetWriterT :=
    { w with
      index_ := index_, indexs_ := indexs_, workerIds_ := workerIds_, userIds_ := userIds_,
      status_ := status_, timestamps_ := timestamps_, ip_ := ip_, ipStr_ := ipStr_,
      jobIds_ := jobIds_, shareDiff_ := shareDiff_, networkDiff_ := networkDiff_,
      height_ := height_, nonce_ := nonce_, sessionId_ := sessionId_,
      outputHash_ := outputHash_, extUserId_ := extUserId_, diffReached_ := diffReached_,
      shareNum_ := w.shareNum_ + 1 }
  if w1.shareNum_ ≥ w1.DEFAULT_NUM_ROWS_PER_ROW_GROUP then
    return flushShares w1
  else
    return w1

/-- The destructor `~ParquetWriterT()`: a last `flushShares()` when rows are
buffered, then every column buffer is deleted. -/
def destructor (w : ParquetWriterT) : ParquetWriterT :=
  let w1 := if w.shareNum_ > 0 then flushShares w else w
  { w1 with
    indexs_ := [], workerIds_ := [], userIds_ := [], status_ := [], timestamps_ := [],
    ip_ := [], ipStr_ := [], jobIds_ := [], shareDiff_ := [], networkDiff_ := [],
    height_ := [], nonce_ := [], sessionId_ := [], outputHash_ := [], extUserId_ := [],
    diffReached_ := [] }

/-- A run of `addShare` calls, one per record, in order. -/
def addShares (w : ParquetWriterT) (shares : List ShareBeam) : Except Fault ParquetWriterT :=
  shares.foldlM addShare w

/-- The buffered values as column writes: the row group a flush would emit. -/
def buffered (w : ParquetWriterT) : RowGroup :=
  ((flushShares w).fileWriter_.drop w.fileWriter_.length).headD []

end ParquetWriterT

/-- The row of a record that is given the index value `index`: one cell per
schema column. -/
def rowOf (index : Int) (share : ShareBeam) : List Cell :=
  [ .int64 index, .int64 share.workerhashid, .int32 share.userid, .int32 share.status,
    .int64 share.timestamp, .byteArray share.ip, .int64 share.inputprefix,
    .int64 share.sharediff, .double (BeamDifficulty.BeamBitsToDifficulty share.blockbits),
    .int32 share.height, .int64 share.nonce, .int32 share.sessionid,
    .int32 share.outputhash, .int32 share.extuserid,
    .double ((BeamDifficulty.BitcoinStyleBitsToDifficulty share.bitsreached).toOption.getD 0) ]

/-- The rows of records appended one after the other, the first of which is
given the index value `start + 1`. -/
def rowsOf (start : Int) : List ShareBeam → List (List Cell)
  | [] => []
  | share :: shares => rowOf (start + 1) share :: rowsOf (start + 1) shares

namespace ParquetWriterT

/-- The state of a writer between two calls: every column buffer has
`DEFAULT_NUM_ROWS_PER_ROW_GROUP` elements and the cursor `shareNum_` is below
that capacity. -/
structure Ready (w : ParquetWriterT) : Prop where
  cursor : w.shareNum_ < w.DEFAULT_NUM_ROWS_PER_ROW_GROUP
  indexs : w.indexs_.length = w.DEFAULT_NUM_ROWS_PER_ROW_GROUP
  workerIds : w.workerIds_.length = w.DEFAULT_NUM_ROWS_PER_ROW_GROUP
  userIds : w.userIds_.length = w.DEFAULT_NUM_ROWS_PER_ROW_GROUP
  status : w.status_.length = w.DEFAULT_NUM_ROWS_PER_ROW_GROUP
  timestamps : w.timestamps_.length = w.DEFAULT_NUM_ROWS_PER_ROW_GROUP
  ip : w.ip_.length = w.DEFAULT_NUM_ROWS_PER_ROW_GROUP
  ipStr : w.ipStr_.length = w.DEFAULT_NUM_ROWS_PER_ROW_GROUP
  jobIds : w.jobIds_.length = w.DEFAULT_NUM_ROWS_PER_ROW_GROUP
  shareDiff : w.shareDiff_.length = w.DEFAULT_NUM_ROWS_PER_ROW_GROUP
  networkDiff : w.networkDiff_.length = w.DEFAULT_NUM_ROWS_PER_ROW_GROUP
  height : w.height_.length = w.DEFAULT_NUM_ROWS_PER_ROW_GROUP
  nonce : w.nonce_.length = w.DEFAULT_NUM_ROWS_PER_ROW_GROUP
  sessionId : w.sessionId_.length = w.DEFAULT_NUM_ROWS_PER_ROW_GROUP
  outputHash : w.outputHash_.length = w.DEFAULT_NUM_ROWS_PER_ROW_GROUP
  extUserId : w.extUserId_.length = w.DEFAULT_NUM_ROWS_PER_ROW_GROUP
  diffReached : w.diffReached_.length = w.DEFAULT_NUM_ROWS_PER_ROW_GROUP

/-- The writer `addShare` reaches just before its capacity test, when every
assignment is inside its buffer and the conversion of `bitsreached` has
returned `diffReached`. -/
def stored (w : ParquetWriterT) (share : ShareBeam) (diffReached : Double) : ParquetWriterT :=
  { w with
    index_ := w.index_ + 1
    indexs_ := w.indexs_.set w.shareNum_ (w.index_ + 1)
    workerIds_ := w.workerIds_.set w.shareNum_ share.workerhashid
    userIds_ := w.userIds_.set w.shareNum_ share.userid
    status_ := w.status_.set w.shareNum_ share.status
    timestamps_ := w.timestamps_.set w.shareNum_ share.timestamp
    ip_ := w.ip_.set w.shareNum_ share.ip
    ipStr_ := w.ipStr_.set w.shareNum_ share.ip
    jobIds_ := w.jobIds_.set w.shareNum_ share.inputprefix
    shareDiff_ := w.shareDiff_.set w.shareNum_ share.sharediff
    networkDiff_ := w.networkDiff_.set w.shareNum_
      (BeamDifficulty.BeamBitsToDifficulty share.blockbits)
    height_ := w.height_.set w.shareNum_ share.height
    nonce_ := w.nonce_.set w.shareNum_ share.nonce
    sessionId_ := w.sessionId_.set w.shareNum_ share.sessionid
    outputHash_ := w.outputHash_.set w.shareNum_ share.outputhash
    extUserId_ := w.extUserId_.set w.shareNum_ share.extuserid
    diffReached_ := w.diffReached_.set w.shareNum_ diffReached
    shareNum_ := w.shareNum_ + 1 }

/-- The writer as `addShare` leaves it when the conversion of `bitsreached`
throws: the counter `index_` is incremented and the assignments up to
`extUserId_` are done; `diffReached_` is not assigned and `shareNum_` is not
advanced. -/
def thrown (w : ParquetWriterT) (share : ShareBeam) : ParquetWriterT :=
  { w with
    index_ := w.index_ + 1
    indexs_ := w.indexs_.set w.shareNum_ (w.index_ + 1)
    workerIds_ := w.workerIds_.set w.shareNum_ share.workerhashid
    userIds_ := w.userIds_.set w.shareNum_ share.userid
    status_ := w.status_.set w.shareNum_ share.status
    timestamps_ := w.timestamps_.set w.shareNum_ share.timestamp
    ip_ := w.ip_.set w.shareNum_ share.ip
    ipStr_ := w.ipStr_.set w.shareNum_ share.ip
    jobIds_ := w.jobIds_.set w.shareNum_ share.inputprefix
    shareDiff_ := w.shareDiff_.set w.shareNum_ share.sharediff
    networkDiff_ := w.networkDiff_.set w.shareNum_
      (BeamDifficulty.BeamBitsToDifficulty share.blockbits)
    height_ := w.height_.set w.shareNum_ share.height
    nonce_ := w.nonce_.set w.shareNum_ share.nonce
    sessionId_ := w.sessionId_.set w.shareNum_ share.sessionid
    outputHash_ := w.outputHash_.set w.shareNum_ share.outputhash
    extUserId_ := w.extUserId_.set w.shareNum_ share.extuserid }

/-- Every row the writer holds: the rows of the row groups in the file, then
the buffered rows. -/
def allRows (w : ParquetWriterT) : List (List Cell) :=
  fileRows w.fileWriter_ ++ w.buffered.rows

end ParquetWriterT

/-- A row group of exactly `c` rows: fifteen column writes, each of which was
passed the count `c` and carries `c` values. -/
def FullGroup (c : Nat) (g : RowGroup) : Prop :=
  g.length = 15 ∧ g.numRows = c ∧ g.rows.length = c ∧
    ∀ col ∈ g, col.num_values = c ∧ col.values.length = c

/-- The records `addShare` returns on: the conversion of `bitsreached` does
not throw. -/
def Convertible (share : ShareBeam) : Prop :=
  ∃ d, BeamDifficulty.BitcoinStyleBitsToDifficulty share.bitsreached = .ok d

/-- The compact-target expansion in the words of the specification: with
`s = v >> 24` and `m = v & 0x007fffff`, the target is `m >> (8 * (3 - s))`
when `s ≤ 3` and `(m * 256 ^ (s - 3)) mod 2 ^ 256` when `s > 3`. -/
def compactTarget (v : Nat) : Nat :=
  let s := v >>> 24
  let m := v &&& 0x007fffff
  if s ≤ 3 then m >>> (8 * (3 - s)) else (m * 256 ^ (s - 3)) % 2 ^ 256

/-- A small payload format that instantiates the `Protobuf` parameter at
concrete inputs: the payload is the twelve bytes of `version`, `blockbits` and
`bitsreached`; the other fields are not transmitted. -/
def fixtureProtobuf : Protobuf where
  ByteSize := fun _ => 12
  SerializeToArray := fun m size =>
    if 12 ≤ size then some (le32 m.version ++ le32 m.blockbits ++ le32 m.bitsreached) else none
  ParseFromArray := fun mem size =>
    if size = 12 then
      match readU32 mem, readU32 (mem.drop 4), readU32 (mem.drop 8) with
      | .ok v, .ok b, .ok r =>
        (true, { ShareBeam.new with version := v, blockbits := b, bitsreached := r })
      | _, _, _ => (false, ShareBeam.new)
    else (false, ShareBeam.new)

/-- A record of the current version, used as a concrete input. -/
def fixtureShare : ShareBeam :=
  { ShareBeam.new with version := ShareBeam.CURRENT_VERSION, blockbits := 0x18000000,
                       bitsreached := 8 }

/-- A record whose `bitsreached` is 256, the bit length of a 256-bit value with
its top bit set; its other fields are those of `ShareBeam()`. -/
def throwingShare : ShareBeam :=
  { ShareBeam.new with bitsreached := 256 }

/-- A payload format whose serializer always reports failure (as for a message
with an unset required field); it instantiates the `Protobuf` parameter on the
failure path of the encoders. -/
def failingProtobuf : Protobuf where
  ByteSize := fun _ => 12
  SerializeToArray := fun _ _ => none
  ParseFromArray := fun _ _ => (false, ShareBeam.new)

namespace ParquetWriterT

/-- The cursor lies within every column buffer that `flushShares` reads:
each of the fifteen buffers holds at least `shareNum_` elements. -/
structure CursorInBuffers (w : ParquetWriterT) : Prop where
  indexs : w.shareNum_ ≤ w.indexs_.length
  workerIds : w.shareNum_ ≤ w.workerIds_.length
  userIds : w.shareNum_ ≤ w.userIds_.length
  status : w.shareNum_ ≤ w.status_.length
  timestamps : w.shareNum_ ≤ w.timestamps_.length
  ip : w.shareNum_ ≤ w.ip_.length
  jobIds : w.shareNum_ ≤ w.jobIds_.length
  shareDiff : w.shareNum_ ≤ w.shareDiff_.length
  networkDiff : w.shareNum_ ≤ w.networkDiff_.length
  height : w.shareNum_ ≤ w.height_.length
  nonce : w.shareNum_ ≤ w.nonce_.length
  sessionId : w.shareNum_ ≤ w.sessionId_.length
  outputHash : w.shareNum_ ≤ w.outputHash_.length
  extUserId : w.shareNum_ ≤ w.extUserId_.length
  diffReached : w.shareNum_ ≤ w.diffReached_.length

end ParquetWriterT

/-! ## Theorems: BeamDifficulty -/

open BeamDifficulty

theorem toInt32_order (order : Nat) (h : order < 256) :
    toInt32 ((order + (2 ^ 32 - 24)) % 2 ^ 32) = (order : Int) - 24 := by
  unfold toInt32
  by_cases h24 : 24 ≤ order
  · have e : (order + (2 ^ 32 - 24)) % 2 ^ 32 = order - 24 := by omega
    rw [e]
    have e2 : (order - 24) % 2 ^ 32 = order - 24 := by omega
    rw [e2, if_pos (by omega)]
    omega
  · have e : (order + (2 ^ 32 - 24)) % 2 ^ 32 = order + (2 ^ 32 - 24) := by omega
    rw [e]
    have e2 : (order + (2 ^ 32 - 24)) % 2 ^ 32 = order + (2 ^ 32 - 24) := by omega
    rw [e2, if_neg (by omega)]
    push_cast
    omega

theorem Unpack_eq (packed : Nat) :
    Unpack packed = (packed / 2 ^ 24, 2 ^ 24 + packed % 2 ^ 24) := by
  unfold Unpack
  have h1 : (1 <<< 24 : Nat) = 2 ^ 24 := by decide
  simp only [h1, Nat.shiftRight_eq_div_pow, Nat.and_pow_two_sub_one_eq_mod]
  have h2 := Nat.mul_add_lt_is_or (Nat.mod_lt packed (Nat.two_pow_pos 24)) 1
  rw [Nat.mul_one] at h2
  rw [← h2]

theorem BeamBitsToDifficulty_eq (packed : Nat) (h : packed < 2 ^ 32) (h0 : packed ≠ 0) :
    BeamBitsToDifficulty packed
      = ((2 ^ 24 + packed % 2 ^ 24 : Nat) : ℚ) * (2 : ℚ) ^ (((packed / 2 ^ 24 : Nat) : Int) - 24) := by
  unfold BeamBitsToDifficulty
  rw [if_neg h0, Unpack_eq]
  simp only [ldexp]
  rw [toInt32_order _ (by omega)]

/-- Claim C4: for every 32-bit `packed`, `BeamBitsToDifficulty packed` is `0`
when `packed = 0`, and otherwise it is exactly the rational number
`(2^24 + packed mod 2^24) * 2^((packed >> 24) - 24)`: the exponent the code
passes to `ldexp` is the signed integer `(packed >> 24) - 24`, which lies in
`-24..231`, and the product is a binary64 value, so no rounding takes place. -/
theorem C4_BeamBitsToDifficulty_exact (packed : Nat) (h : packed < 2 ^ 32) :
    (packed = 0 → BeamBitsToDifficulty packed = 0) ∧
    (packed ≠ 0 →
      BeamBitsToDifficulty packed
        = ((2 ^ 24 + packed % 2 ^ 24 : Nat) : ℚ) * (2 : ℚ) ^ (((packed >>> 24 : Nat) : Int) - 24)
      ∧ toInt32 (((Unpack packed).1 + (2 ^ 32 - 24)) % 2 ^ 32) = ((packed >>> 24 : Nat) : Int) - 24
      ∧ -24 ≤ ((packed >>> 24 : Nat) : Int) - 24
      ∧ ((packed >>> 24 : Nat) : Int) - 24 ≤ 231
      ∧ isBinary64 (BeamBitsToDifficulty packed)) := by
  refine ⟨fun h0 => by simp [BeamBitsToDifficulty, h0], fun h0 => ?_⟩
  have hs : packed >>> 24 = packed / 2 ^ 24 := Nat.shiftRight_eq_div_pow packed 24
  have hlt : packed / 2 ^ 24 < 256 := by omega
  have heq := BeamBitsToDifficulty_eq packed h h0
  rw [hs]
  refine ⟨heq, ?_, by omega, by omega, ?_⟩
  · rw [Unpack_eq]
    exact toInt32_order _ hlt
  · refine ⟨((2 ^ 24 + packed % 2 ^ 24 : Nat) : Int), ((packed / 2 ^ 24 : Nat) : Int) - 24, ?_, by omega,
      by omega, ?_⟩
    · rw [abs_of_nonneg (by positivity)]
      have : packed % 2 ^ 24 < 2 ^ 24 := Nat.mod_lt _ (by norm_num)
      omega
    · rw [heq]
      norm_cast

/-- Witness of claim C4 at `packed = 0x17800000` (order byte 23, mantissa bits
`0x800000`): the difficulty is `0x1800000 * 2^(-1) = 12582912`. -/
theorem C4_BeamBitsToDifficulty_exact_witness :
    (0x17800000 : Nat) < 2 ^ 32 ∧
    BeamBitsToDifficulty 0x17800000
      = ((2 ^ 24 + 0x17800000 % 2 ^ 24 : Nat) : ℚ)
          * (2 : ℚ) ^ (((0x17800000 >>> 24 : Nat) : Int) - 24) :=
  ⟨by norm_num, ((C4_BeamBitsToDifficulty_exact 0x17800000 (by norm_num)).2 (by norm_num)).1⟩

/-- Claim C5, as stated, fails: the packed value `0x18000000` (order byte 24,
mantissa bits 0) does not give difficulty `1.0`. -/
theorem C5_fixture_not_one : BeamBitsToDifficulty 0x18000000 ≠ 1 := by
  rw [BeamBitsToDifficulty_eq _ (by norm_num) (by norm_num)]
  norm_num

/-- Claim C5, amended: the packed value `0x18000000` (order byte 24, mantissa
bits 0) gives difficulty `16777216.0`, the mantissa `0x01000000` with its
implicit leading bit times `2^0`. -/
theorem C5_fixture_value : BeamBitsToDifficulty 0x18000000 = 16777216 := by
  rw [BeamBitsToDifficulty_eq _ (by norm_num) (by norm_num)]
  norm_num

theorem kMaxUint256_eq : kMaxUint256 = 2 ^ 256 - 1 := by
  norm_num [kMaxUint256]

theorem legacy_target (v : Nat) (h : v ≤ 0xff) :
    arith_uint256.sub (arith_uint256.shl 1 v) 1 = 2 ^ v - 1 := by
  have hlt : 2 ^ v < 2 ^ 256 := Nat.pow_lt_pow_right (by norm_num) (by omega)
  have hpos : 0 < 2 ^ v := Nat.two_pow_pos v
  unfold arith_uint256.sub arith_uint256.shl
  rw [Nat.one_mul, Nat.mod_eq_of_lt hlt]
  have h1 : (1 : Nat) % 2 ^ 256 = 1 := by norm_num
  rw [h1]
  generalize 2 ^ v = x at *
  omega

theorem legacy_target_pos (v : Nat) (h0 : v ≠ 0) : 0 < 2 ^ v - 1 := by
  have : 2 ^ 1 ≤ 2 ^ v := Nat.pow_le_pow_right (by norm_num) (by omega)
  omega

theorem BitcoinStyle_legacy_eq (v : Nat) (h0 : v ≠ 0) (h : v ≤ 0xff) :
    BitcoinStyleBitsToDifficulty v
      = .ok (arith_uint256.getdouble ((2 ^ 256 - 1) / (2 ^ v - 1))) := by
  unfold BitcoinStyleBitsToDifficulty
  rw [if_neg h0, if_pos h]
  simp only [legacy_target v h, arith_uint256.div, kMaxUint256]
  rw [if_neg (by have := legacy_target_pos v h0; omega)]
  rfl

theorem BitcoinStyle_compact_eq (v : Nat) (h : 0xff < v) :
    BitcoinStyleBitsToDifficulty v
      = (arith_uint256.div kMaxUint256 (arith_uint256.SetCompact v)).map
          arith_uint256.getdouble := by
  unfold BitcoinStyleBitsToDifficulty
  rw [if_neg (by omega), if_neg (by omega)]

theorem SetCompact_256 : arith_uint256.SetCompact 256 = 0 := by decide

/-- Claim C6, at the failing input `bitcoinStyleBits = 256` (`0x00000100`): the
value is above `0xff`, its compact expansion is the zero target, and the
256-bit division throws instead of returning a double. -/
theorem C6_BitcoinStyle_256_throws :
    arith_uint256.SetCompact 256 = 0 ∧
    BitcoinStyleBitsToDifficulty 256 = .error .divisionByZero := by
  refine ⟨SetCompact_256, ?_⟩
  rw [BitcoinStyle_compact_eq 256 (by norm_num), SetCompact_256]
  rfl

/-- Claim C7: for every `v ≤ 0xff` the legacy branch is taken: the result is
`0.0` for `v = 0`, and for `1 ≤ v ≤ 255` the target `(1 << v) - 1` is computed
in 256 bits without overflow (it is `2^v - 1`, positive and below `2^256`) and
the result is the conversion to double of the exact quotient
`(2^256 - 1) / (2^v - 1)`; the quotient is `2^256 - 1` for `v = 1` and `2`
for `v = 255`. -/
theorem C7_BitcoinStyle_legacy (v : Nat) (h : v ≤ 0xff) :
    (v = 0 → BitcoinStyleBitsToDifficulty v = .ok 0) ∧
    (1 ≤ v →
      BitcoinStyleBitsToDifficulty v
        = .ok (arith_uint256.getdouble ((2 ^ 256 - 1) / (2 ^ v - 1)))
      ∧ arith_uint256.sub (arith_uint256.shl 1 v) 1 = 2 ^ v - 1
      ∧ 1 * 2 ^ v < 2 ^ 256
      ∧ 0 < 2 ^ v - 1) ∧
    BitcoinStyleBitsToDifficulty 1 = .ok (arith_uint256.getdouble (2 ^ 256 - 1)) ∧
    BitcoinStyleBitsToDifficulty 255 = .ok (arith_uint256.getdouble 2) := by
  refine ⟨fun h0 => by simp [BitcoinStyleBitsToDifficulty, h0], fun h1 => ?_, ?_, ?_⟩
  · refine ⟨BitcoinStyle_legacy_eq v (by omega) h, legacy_target v h, ?_, legacy_target_pos v (by omega)⟩
    rw [Nat.one_mul]
    exact Nat.pow_lt_pow_right (by norm_num) (by omega)
  · rw [BitcoinStyle_legacy_eq 1 (by norm_num) (by norm_num)]
    norm_num
  · rw [BitcoinStyle_legacy_eq 255 (by norm_num) (by norm_num)]
    norm_num

/-- Witness of claim C7 at `v = 8`: the quotient is `(2^256 - 1) / 255`. -/
theorem C7_BitcoinStyle_legacy_witness :
    (8 : Nat) ≤ 0xff ∧
    BitcoinStyleBitsToDifficulty 8 = .ok (arith_uint256.getdouble ((2 ^ 256 - 1) / (2 ^ 8 - 1))) :=
  ⟨by norm_num, ((C7_BitcoinStyle_legacy 8 (by norm_num)).2.1 (by norm_num)).1⟩

/-- Claim C8: for every `v > 0xff` the compact branch is taken, whatever else
holds of `v`: the divisor is the compact expansion `compactTarget v` of the
claim, and when that target is non-zero the result is the conversion to
double of the exact quotient `(2^256 - 1) / compactTarget v`. -/
theorem C8_BitcoinStyle_compact (v : Nat) (h : 0xff < v) :
    arith_uint256.SetCompact v = compactTarget v ∧
    BitcoinStyleBitsToDifficulty v
      = (arith_uint256.div (2 ^ 256 - 1) (compactTarget v)).map arith_uint256.getdouble ∧
    (compactTarget v ≠ 0 →
      BitcoinStyleBitsToDifficulty v
        = .ok (arith_uint256.getdouble ((2 ^ 256 - 1) / compactTarget v))) := by
  have hT : arith_uint256.SetCompact v = compactTarget v := by
    unfold arith_uint256.SetCompact compactTarget arith_uint256.shl
    simp only [Nat.pow_mul]
  have hB := BitcoinStyle_compact_eq v h
  rw [hT] at hB
  refine ⟨hT, hB, fun hne => ?_⟩
  rw [hB]
  unfold arith_uint256.div
  rw [if_neg hne]
  rfl

/-- Witness of claim C8 at `v = 0x1d00ffff`, whose target is `0xffff * 256^26`. -/
theorem C8_BitcoinStyle_compact_witness :
    (0xff : Nat) < 0x1d00ffff ∧
    BitcoinStyleBitsToDifficulty 0x1d00ffff
      = (arith_uint256.div (2 ^ 256 - 1) (compactTarget 0x1d00ffff)).map arith_uint256.getdouble :=
  ⟨by norm_num, (C8_BitcoinStyle_compact 0x1d00ffff (by norm_num)).2.1⟩

/-! ## Theorems: ShareBeam -/

theorem readU32_le32_append (v : Nat) (rest : List Byte) :
    readU32 (le32 v ++ rest) = .ok (v % 2 ^ 32) := by
  simp only [le32, readU32, List.cons_append, List.nil_append, Fin.ofNat, Fin.val_mk]
  congr 1
  omega

theorem resize_length (data : List Byte) (n : Nat) : (resize data n).length = n := by
  simp only [resize, List.length_append, List.length_take, List.length_replicate]
  omega

theorem le32_length (v : Nat) : (le32 v).length = 4 := rfl

theorem writeAt_tag_payload (data : List Byte) (v : Nat) (payload : List Byte) :
    writeAt (writeAt (resize data (payload.length + 4)) 0 (le32 v)) 4 payload
      = le32 v ++ payload := by
  have h1 : (writeAt (resize data (payload.length + 4)) 0 (le32 v)).length = payload.length + 4 := by
    simp only [writeAt, List.take_zero, List.nil_append, List.length_append, le32_length,
      List.length_drop, resize_length]
    omega
  have h2 : (writeAt (resize data (payload.length + 4)) 0 (le32 v)).take 4 = le32 v := by
    simp only [writeAt, List.take_zero, List.nil_append]
    rw [List.take_append_of_le_length (by simp [le32_length])]
    exact List.take_of_length_le (by simp [le32_length])
  unfold writeAt at h1 h2 ⊢
  rw [h2, List.drop_of_length_le (by omega), List.append_nil]

theorem SerializeToArrayWithVersion_ok (P : Protobuf) (r : ShareBeam) (data payload : List Byte)
    (hsize : P.ByteSize r < 2 ^ 31)
    (hser : P.SerializeToArray r (P.ByteSize r) = some payload)
    (hlen : payload.length = P.ByteSize r) :
    ShareBeam.SerializeToArrayWithVersion P r data
      = (true, le32 r.version ++ payload, payload.length + 4) := by
  unfold ShareBeam.SerializeToArrayWithVersion
  have hmod : P.ByteSize r % 2 ^ 32 = P.ByteSize r := Nat.mod_eq_of_lt (by omega)
  simp only [hmod, hser]
  rw [← hlen, writeAt_tag_payload]
  have : (payload.length + 4) % 2 ^ 32 = payload.length + 4 := Nat.mod_eq_of_lt (by omega)
  rw [this]

theorem toInt32_size_sub (n : Nat) (h : n < 2 ^ 31) :
    toInt32 ((n + 4 + (2 ^ 64 - 4)) % 2 ^ 64) = (n : Int) := by
  have e : (n + 4 + (2 ^ 64 - 4)) % 2 ^ 64 = n := by omega
  rw [e]
  unfold toInt32
  have e2 : n % 2 ^ 32 = n := by omega
  rw [e2, if_pos (by omega)]

/-- Claim C9: for every record `r` whose version field is `CURRENT_VERSION`
and whose structured serialization succeeds with a payload of `ByteSize`
bytes (an `int`), if the payload parser inverts the payload serializer on `r`,
then `SerializeToArrayWithVersion` succeeds and `UnserializeWithVersion`,
applied to the bytes and the size it produced, succeeds and leaves a record
equal to `r`, whatever record it was called on and whatever the output string
held before. -/
theorem C9_version_roundtrip (P : Protobuf) (r self : ShareBeam) (data payload : List Byte)
    (hver : r.version = ShareBeam.CURRENT_VERSION)
    (hsize : P.ByteSize r < 2 ^ 31)
    (hser : P.SerializeToArray r (P.ByteSize r) = some payload)
    (hlen : payload.length = P.ByteSize r)
    (hparse : P.ParseFromArray payload payload.length = (true, r)) :
    (ShareBeam.SerializeToArrayWithVersion P r data).1 = true ∧
    ShareBeam.UnserializeWithVersion P self
        (some (ShareBeam.SerializeToArrayWithVersion P r data).2.1)
        (ShareBeam.SerializeToArrayWithVersion P r data).2.2
      = .ok (true, r) := by
  rw [SerializeToArrayWithVersion_ok P r data payload hsize hser hlen]
  refine ⟨rfl, ?_⟩
  unfold ShareBeam.UnserializeWithVersion
  simp only
  rw [if_neg (by omega), readU32_le32_append, hver]
  have hcv : ShareBeam.CURRENT_VERSION % 2 ^ 32 = ShareBeam.CURRENT_VERSION := by decide
  simp only [hcv, if_true]
  have hdrop : (le32 ShareBeam.CURRENT_VERSION ++ payload).drop 4 = payload := by
    simp [le32]
  rw [hdrop, toInt32_size_sub _ (by omega), hparse]

/-- Witness of claim C9: the record `fixtureShare` under the payload format
`fixtureProtobuf`. -/
theorem C9_version_roundtrip_witness :
    ShareBeam.UnserializeWithVersion fixtureProtobuf ShareBeam.new
        (some (ShareBeam.SerializeToArrayWithVersion fixtureProtobuf fixtureShare []).2.1)
        (ShareBeam.SerializeToArrayWithVersion fixtureProtobuf fixtureShare []).2.2
      = .ok (true, fixtureShare) :=
  (C9_version_roundtrip fixtureProtobuf fixtureShare ShareBeam.new []
    (le32 fixtureShare.version ++ le32 fixtureShare.blockbits ++ le32 fixtureShare.bitsreached)
    rfl (by decide) rfl rfl (by decide)).2

/-- Claim C10: for every memory of at least 4 bytes whose first 4 bytes, read
as a little-endian `uint32_t`, differ from `CURRENT_VERSION`,
`UnserializeWithVersion` returns `false` and leaves the record unchanged, for
every size, every remaining bytes and every payload parser: the result does
not depend on the parser, which is not called. -/
theorem C10_unsupported_version (P : Protobuf) (self : ShareBeam) (mem : List Byte)
    (size : Nat) (hlen : 4 ≤ mem.length)
    (hver : readU32 mem ≠ .ok ShareBeam.CURRENT_VERSION) :
    ShareBeam.UnserializeWithVersion P self (some mem) size = .ok (false, self) := by
  unfold ShareBeam.UnserializeWithVersion
  simp only
  split
  · rfl
  · match mem, hlen, hver with
    | b0 :: b1 :: b2 :: b3 :: rest, _, hver =>
      simp only [readU32] at hver ⊢
      rw [if_neg (fun h => hver (by rw [h]))]

/-- Witness of claim C10: version tag `0x0bea0002` in front of the payload of
`fixtureShare`, which `fixtureProtobuf` would parse. -/
theorem C10_unsupported_version_witness :
    ShareBeam.UnserializeWithVersion fixtureProtobuf ShareBeam.new
        (some (le32 0x0bea0002 ++ le32 ShareBeam.CURRENT_VERSION ++ le32 0x18000000 ++ le32 8)) 16
      = .ok (false, ShareBeam.new) :=
  C10_unsupported_version fixtureProtobuf ShareBeam.new
    (le32 0x0bea0002 ++ le32 ShareBeam.CURRENT_VERSION ++ le32 0x18000000 ++ le32 8) 16
    (by decide) (by decide)

/-! ## Theorems: ParquetWriterT -/

open ParquetWriterT

theorem getElem?_take_set_lt {α : Type} (l : List α) (n i : Nat) (v : α) (h : i < n) :
    ((l.set n v).take (n + 1))[i]? = (l.take n)[i]? := by
  rw [List.getElem?_take, List.getElem?_take, if_pos (by omega), if_pos h,
    List.getElem?_set_ne (by omega)]

theorem getElem?_take_set_eq {α : Type} (l : List α) (n : Nat) (v : α) (h : n < l.length) :
    ((l.set n v).take (n + 1))[n]? = some v := by
  rw [List.getElem?_take, if_pos (by omega), List.getElem?_set_self h]

theorem buffered_eq (w : ParquetWriterT) :
    w.buffered =
      [ ⟨w.shareNum_, .int64 (w.indexs_.take w.shareNum_)⟩,
        ⟨w.shareNum_, .int64 (w.workerIds_.take w.shareNum_)⟩,
        ⟨w.shareNum_, .int32 (w.userIds_.take w.shareNum_)⟩,
        ⟨w.shareNum_, .int32 (w.status_.take w.shareNum_)⟩,
        ⟨w.shareNum_, .int64 (w.timestamps_.take w.shareNum_)⟩,
        ⟨w.shareNum_, .byteArray (w.ip_.take w.shareNum_)⟩,
        ⟨w.shareNum_, .int64 (w.jobIds_.take w.shareNum_)⟩,
        ⟨w.shareNum_, .int64 (w.shareDiff_.take w.shareNum_)⟩,
        ⟨w.shareNum_, .double (w.networkDiff_.take w.shareNum_)⟩,
        ⟨w.shareNum_, .int32 (w.height_.take w.shareNum_)⟩,
        ⟨w.shareNum_, .int64 (w.nonce_.take w.shareNum_)⟩,
        ⟨w.shareNum_, .int32 (w.sessionId_.take w.shareNum_)⟩,
        ⟨w.shareNum_, .int32 (w.outputHash_.take w.shareNum_)⟩,
        ⟨w.shareNum_, .int32 (w.extUserId_.take w.shareNum_)⟩,
        ⟨w.shareNum_, .double (w.diffReached_.take w.shareNum_)⟩ ] := by
  simp [buffered, flushShares]

theorem flushShares_fileWriter (w : ParquetWriterT) :
    (flushShares w).fileWriter_ = w.fileWriter_ ++ [w.buffered] := by
  rw [buffered_eq]
  rfl

theorem buffered_rows_stored (w : ParquetWriterT) (hw : Ready w) (share : ShareBeam) (d : Double)
    (hd : BeamDifficulty.BitcoinStyleBitsToDifficulty share.bitsreached = .ok d) :
    (stored w share d).buffered.rows = w.buffered.rows ++ [rowOf (w.index_ + 1) share] := by
  have hc := hw.cursor
  rw [buffered_eq, buffered_eq]
  simp only [RowGroup.rows, RowGroup.numRows, stored]
  rw [List.range_succ, List.map_append, List.map_singleton]
  congr 1
  · apply List.map_congr_left
    intro i hi
    have hi : i < w.shareNum_ := List.mem_range.mp hi
    simp only [List.filterMap_cons, List.filterMap_nil, Values.cell?,
      getElem?_take_set_lt _ _ _ _ hi]
  · simp only [List.filterMap_cons, List.filterMap_nil, Values.cell?]
    have e {α : Type} (l : List α) (v : α) (hl : l.length = w.DEFAULT_NUM_ROWS_PER_ROW_GROUP) :
        ((l.set w.shareNum_ v).take (w.shareNum_ + 1))[w.shareNum_]? = some v :=
      getElem?_take_set_eq l w.shareNum_ v (by rw [hl]; exact hc)
    simp only [e _ _ hw.indexs, e _ _ hw.workerIds, e _ _ hw.userIds, e _ _ hw.status,
      e _ _ hw.timestamps, e _ _ hw.ip, e _ _ hw.jobIds, e _ _ hw.shareDiff,
      e _ _ hw.networkDiff, e _ _ hw.height, e _ _ hw.nonce, e _ _ hw.sessionId,
      e _ _ hw.outputHash, e _ _ hw.extUserId, e _ _ hw.diffReached]
    simp [rowOf, hd, Except.toOption]

theorem addShare_eq (w : ParquetWriterT) (hw : Ready w) (share : ShareBeam) (d : Double)
    (hd : BeamDifficulty.BitcoinStyleBitsToDifficulty share.bitsreached = .ok d) :
    addShare w share =
      .ok (if (stored w share d).shareNum_ ≥ (stored w share d).DEFAULT_NUM_ROWS_PER_ROW_GROUP
           then flushShares (stored w share d) else stored w share d) := by
  have hc := hw.cursor
  unfold addShare store
  simp only [hw.indexs, hw.workerIds, hw.userIds, hw.status, hw.timestamps, hw.ip, hw.ipStr,
    hw.jobIds, hw.shareDiff, hw.networkDiff, hw.height, hw.nonce, hw.sessionId, hw.outputHash,
    hw.extUserId, hw.diffReached, hc, if_true, hd, bind, Except.bind, pure, Except.pure, stored]
  split <;> rfl

theorem Ready_stored (w : ParquetWriterT) (hw : Ready w) (share : ShareBeam) (d : Double)
    (h : w.shareNum_ + 1 < w.DEFAULT_NUM_ROWS_PER_ROW_GROUP) : Ready (stored w share d) := by
  constructor <;> simp only [stored, List.length_set]
  · exact h
  · exact hw.indexs
  · exact hw.workerIds
  · exact hw.userIds
  · exact hw.status
  · exact hw.timestamps
  · exact hw.ip
  · exact hw.ipStr
  · exact hw.jobIds
  · exact hw.shareDiff
  · exact hw.networkDiff
  · exact hw.height
  · exact hw.nonce
  · exact hw.sessionId
  · exact hw.outputHash
  · exact hw.extUserId
  · exact hw.diffReached

theorem Ready_flush_stored (w : ParquetWriterT) (hw : Ready w) (share : ShareBeam) (d : Double) :
    Ready (flushShares (stored w share d)) := by
  have hc := hw.cursor
  constructor <;> simp only [flushShares, stored, List.length_set]
  · omega
  · exact hw.indexs
  · exact hw.workerIds
  · exact hw.userIds
  · exact hw.status
  · exact hw.timestamps
  · exact hw.ip
  · exact hw.ipStr
  · exact hw.jobIds
  · exact hw.shareDiff
  · exact hw.networkDiff
  · exact hw.height
  · exact hw.nonce
  · exact hw.sessionId
  · exact hw.outputHash
  · exact hw.extUserId
  · exact hw.diffReached

theorem FullGroup_buffered (w : ParquetWriterT) (hw : Ready w) (share : ShareBeam) (d : Double)
    (h : w.shareNum_ + 1 = w.DEFAULT_NUM_ROWS_PER_ROW_GROUP) :
    FullGroup w.DEFAULT_NUM_ROWS_PER_ROW_GROUP (stored w share d).buffered := by
  rw [buffered_eq]
  refine ⟨rfl, ?_, ?_, ?_⟩
  · simp only [RowGroup.numRows, stored]
    exact h
  · simp only [RowGroup.rows, RowGroup.numRows, stored, List.length_map, List.length_range]
    exact h
  · intro col hcol
    simp only [stored, List.mem_cons, List.mem_singleton, List.not_mem_nil, or_false] at hcol
    rcases hcol with hcol | hcol | hcol | hcol | hcol | hcol | hcol | hcol | hcol | hcol | hcol
      | hcol | hcol | hcol | hcol <;>
    · subst hcol
      simp only [Values.length, List.length_take, List.length_set, hw.indexs, hw.workerIds,
        hw.userIds, hw.status, hw.timestamps, hw.ip, hw.jobIds, hw.shareDiff, hw.networkDiff,
        hw.height, hw.nonce, hw.sessionId, hw.outputHash, hw.extUserId, hw.diffReached]
      omega

theorem fileRows_append (f : List RowGroup) (g : RowGroup) :
    fileRows (f ++ [g]) = fileRows f ++ g.rows := by
  simp [fileRows]

theorem allRows_flushShares (w : ParquetWriterT) : allRows (flushShares w) = allRows w := by
  unfold allRows
  rw [flushShares_fileWriter, fileRows_append]
  have : (flushShares w).buffered.rows = [] := by
    rw [buffered_eq]
    simp [RowGroup.rows, RowGroup.numRows, flushShares]
  rw [this, List.append_nil]

theorem addShare_step (w : ParquetWriterT) (hw : Ready w) (share : ShareBeam)
    (hconv : Convertible share) :
    ∃ w1, addShare w share = .ok w1 ∧ Ready w1
      ∧ w1.DEFAULT_NUM_ROWS_PER_ROW_GROUP = w.DEFAULT_NUM_ROWS_PER_ROW_GROUP
      ∧ w1.index_ = w.index_ + 1
      ∧ allRows w1 = allRows w ++ [rowOf (w.index_ + 1) share]
      ∧ w1.fileWriter_.length * w.DEFAULT_NUM_ROWS_PER_ROW_GROUP + w1.shareNum_
          = w.fileWriter_.length * w.DEFAULT_NUM_ROWS_PER_ROW_GROUP + w.shareNum_ + 1
      ∧ (∀ g ∈ w1.fileWriter_,
          g ∈ w.fileWriter_ ∨ FullGroup w.DEFAULT_NUM_ROWS_PER_ROW_GROUP g) := by
  obtain ⟨d, hd⟩ := hconv
  have hc := hw.cursor
  have hrows : allRows (stored w share d) = allRows w ++ [rowOf (w.index_ + 1) share] := by
    unfold allRows
    rw [buffered_rows_stored w hw share d hd, List.append_assoc]
    rfl
  rw [addShare_eq w hw share d hd]
  by_cases hfull : (stored w share d).shareNum_ ≥ (stored w share d).DEFAULT_NUM_ROWS_PER_ROW_GROUP
  · rw [if_pos hfull]
    have hfull2 : w.shareNum_ + 1 = w.DEFAULT_NUM_ROWS_PER_ROW_GROUP := by
      simp only [stored] at hfull
      omega
    refine ⟨_, rfl, Ready_flush_stored w hw share d, rfl, rfl, ?_, ?_, ?_⟩
    · rw [allRows_flushShares, hrows]
    · rw [flushShares_fileWriter]
      simp only [List.length_append, List.length_singleton, flushShares, stored]
      rw [Nat.add_mul]
      omega
    · intro g hg
      rw [flushShares_fileWriter, List.mem_append, List.mem_singleton] at hg
      rcases hg with hg | hg
      · exact Or.inl hg
      · exact Or.inr (hg ▸ FullGroup_buffered w hw share d hfull2)
  · rw [if_neg hfull]
    have hlt : w.shareNum_ + 1 < w.DEFAULT_NUM_ROWS_PER_ROW_GROUP := by
      simp only [stored] at hfull
      omega
    exact ⟨_, rfl, Ready_stored w hw share d hlt, rfl, rfl, hrows, rfl, fun g hg => Or.inl hg⟩

theorem addShares_run (shares : List ShareBeam) (w : ParquetWriterT) (hw : Ready w)
    (hconv : ∀ share ∈ shares, Convertible share) :
    ∃ w1, addShares w shares = .ok w1 ∧ Ready w1
      ∧ w1.DEFAULT_NUM_ROWS_PER_ROW_GROUP = w.DEFAULT_NUM_ROWS_PER_ROW_GROUP
      ∧ w1.index_ = w.index_ + shares.length
      ∧ allRows w1 = allRows w ++ rowsOf w.index_ shares
      ∧ w1.fileWriter_.length * w.DEFAULT_NUM_ROWS_PER_ROW_GROUP + w1.shareNum_
          = w.fileWriter_.length * w.DEFAULT_NUM_ROWS_PER_ROW_GROUP + w.shareNum_ + shares.length
      ∧ (∀ g ∈ w1.fileWriter_,
          g ∈ w.fileWriter_ ∨ FullGroup w.DEFAULT_NUM_ROWS_PER_ROW_GROUP g) := by
  induction shares generalizing w with
  | nil =>
    refine ⟨w, rfl, hw, rfl, by simp, by simp [rowsOf], by simp, fun g hg => Or.inl hg⟩
  | cons share shares ih =>
    obtain ⟨w1, h1, hr1, hcap1, hidx1, hrows1, hcnt1, hg1⟩ :=
      addShare_step w hw share (hconv share (List.mem_cons_self _ _))
    obtain ⟨w2, h2, hr2, hcap2, hidx2, hrows2, hcnt2, hg2⟩ :=
      ih w1 hr1 (fun s hs => hconv s (List.mem_cons_of_mem _ hs))
    refine ⟨w2, ?_, hr2, by rw [hcap2, hcap1], ?_, ?_, ?_, ?_⟩
    · simp only [addShares, List.foldlM_cons, h1, bind, Except.bind]
      exact h2
    · rw [hidx2, hidx1, List.length_cons]
      push_cast
      omega
    · rw [hrows2, hrows1, hidx1, List.append_assoc]
      rfl
    · rw [hcap1] at hcnt2
      rw [hcnt2, hcnt1, List.length_cons]
      omega
    · intro g hg
      rcases hg2 g hg with h | h
      · exact hg1 g h
      · exact Or.inr (hcap1 ▸ h)

theorem Ready_new (c : Nat) (hc : 1 ≤ c) : Ready (ParquetWriterT.new c) := by
  constructor <;> simp only [ParquetWriterT.new, List.length_replicate]
  omega

theorem allRows_new (c : Nat) : allRows (ParquetWriterT.new c) = [] := by
  unfold allRows
  rw [buffered_eq]
  simp [fileRows, RowGroup.rows, RowGroup.numRows, ParquetWriterT.new]

theorem buffered_rows_length (w : ParquetWriterT) : w.buffered.rows.length = w.shareNum_ := by
  rw [buffered_eq]
  simp [RowGroup.rows, RowGroup.numRows]

theorem destructor_fileRows (w : ParquetWriterT) :
    fileRows (destructor w).fileWriter_ = allRows w := by
  unfold destructor
  by_cases h : w.shareNum_ > 0
  · simp only [h, if_true]
    rw [flushShares_fileWriter, fileRows_append]
    rfl
  · simp only [h, if_false]
    have h0 : w.buffered.rows = [] := by
      apply List.eq_nil_of_length_eq_zero
      rw [buffered_rows_length]
      omega
    unfold allRows
    rw [h0, List.append_nil]

theorem rowsOf_length (start : Int) (shares : List ShareBeam) :
    (rowsOf start shares).length = shares.length := by
  induction shares generalizing start with
  | nil => rfl
  | cons x xs ih => simp only [rowsOf, List.length_cons, ih]

theorem rowsOf_getElem? (start : Int) (shares : List ShareBeam) (k : Nat) :
    (rowsOf start shares)[k]? = (shares[k]?).map (rowOf (start + k + 1)) := by
  induction shares generalizing start k with
  | nil => simp [rowsOf]
  | cons x xs ih =>
    cases k with
    | zero => simp [rowsOf]
    | succ k =>
      have e : start + 1 + (k : Int) + 1 = start + ((k + 1 : Nat) : Int) + 1 := by
        push_cast
        ring
      simp only [rowsOf, List.getElem?_cons_succ, ih, e]

theorem rowsOf_index (start : Int) (shares : List ShareBeam) :
    (rowsOf start shares).map List.head?
      = (List.range shares.length).map
          (fun (k : Nat) => some (Cell.int64 (start + (k : Int) + 1))) := by
  apply List.ext_getElem?
  intro k
  rw [List.getElem?_map, rowsOf_getElem?, List.getElem?_map]
  by_cases h : k < shares.length
  · rw [List.getElem?_eq_getElem h, List.getElem?_range h]
    simp [rowOf]
  · rw [List.getElem?_eq_none (by omega), List.getElem?_eq_none (by simp; omega)]
    rfl

/-- Runs in which every call returns: for every capacity `c ≥ 1` and every
sequence of records whose conversion of `bitsreached` does not throw, the run
of `addShare` calls on a fresh writer returns, and after the destructor the
concatenation of the emitted row groups, in emission order, has exactly one
row per record, in append order: as many rows as records, and row `k` is the
row of record `k` with index value `k + 1`. -/
theorem returning_run_rows (c : Nat) (hc : 1 ≤ c) (shares : List ShareBeam)
    (hconv : ∀ share ∈ shares, Convertible share) :
    ∃ w, addShares (ParquetWriterT.new c) shares = .ok w
      ∧ fileRows (destructor w).fileWriter_ = rowsOf 0 shares
      ∧ (fileRows (destructor w).fileWriter_).length = shares.length
      ∧ ∀ k : Nat, (fileRows (destructor w).fileWriter_)[k]?
          = (shares[k]?).map (rowOf ((k : Int) + 1)) := by
  obtain ⟨w, hrun, _, _, _, hrows, _, _⟩ :=
    addShares_run shares (ParquetWriterT.new c) (Ready_new c hc) hconv
  have hfile : fileRows (destructor w).fileWriter_ = rowsOf 0 shares := by
    rw [destructor_fileRows, hrows, allRows_new]
    rfl
  refine ⟨w, hrun, hfile, ?_, ?_⟩
  · rw [hfile, rowsOf_length]
  · intro k
    rw [hfile, rowsOf_getElem?, Int.zero_add]

theorem Convertible_new : Convertible ShareBeam.new := ⟨0, rfl⟩

theorem Convertible_fixtureShare : Convertible fixtureShare :=
  ⟨_, BitcoinStyle_legacy_eq 8 (by decide) (by decide)⟩

theorem Convertible_fixtures :
    ∀ share ∈ [ShareBeam.new, fixtureShare, ShareBeam.new], Convertible share := by
  intro share h
  simp only [List.mem_cons, List.mem_singleton, List.not_mem_nil, or_false] at h
  rcases h with h | h | h
  · exact h ▸ Convertible_new
  · exact h ▸ Convertible_fixtureShare
  · exact h ▸ Convertible_new

/-- Runs in which every call returns: `flushShares` never changes the index
counter, and for every capacity `c ≥ 1` and every `n` records whose conversion
of `bitsreached` does not throw, appended to a fresh writer, the counter ends
at `n`, the index column over all row groups plus the buffered rows is
`1, 2, ..., n`, and the row of the `k`-th record carries the index value `k`,
however many flushes happened in between. -/
theorem returning_run_index (c : Nat) (hc : 1 ≤ c) (shares : List ShareBeam)
    (hconv : ∀ share ∈ shares, Convertible share) :
    (∀ w : ParquetWriterT, (flushShares w).index_ = w.index_) ∧
    ∃ w, addShares (ParquetWriterT.new c) shares = .ok w
      ∧ w.index_ = shares.length
      ∧ (allRows w).map List.head?
          = (List.range shares.length).map (fun (k : Nat) => some (Cell.int64 ((k : Int) + 1)))
      ∧ ∀ k : Nat, (allRows w)[k]? = (shares[k]?).map (rowOf ((k : Int) + 1)) := by
  refine ⟨fun _ => rfl, ?_⟩
  obtain ⟨w, hrun, _, _, hidx, hrows, _, _⟩ :=
    addShares_run shares (ParquetWriterT.new c) (Ready_new c hc) hconv
  have hall : allRows w = rowsOf 0 shares := by
    rw [hrows, allRows_new]
    rfl
  refine ⟨w, hrun, ?_, ?_, ?_⟩
  · rw [hidx]
    simp [ParquetWriterT.new]
  · rw [hall, rowsOf_index]
    simp
  · intro k
    rw [hall, rowsOf_getElem?, Int.zero_add]

/-- Claim C3, as stated, fails at capacity `c = 1`: after `c + 1 = 2` calls of
`addShare` on a fresh writer no row is buffered (two row groups have been
emitted), not exactly one. -/
theorem C3_capacity_one_counterexample :
    ∃ w, addShares (ParquetWriterT.new 1) [ShareBeam.new, ShareBeam.new] = .ok w
      ∧ w.fileWriter_.length = 2 ∧ w.shareNum_ = 0 ∧ w.buffered.rows.length ≠ 1 := by
  obtain ⟨w, hrun, hr, hcap, _, _, hcnt, _⟩ :=
    addShares_run [ShareBeam.new, ShareBeam.new] (ParquetWriterT.new 1) (Ready_new 1 (by decide))
      (fun s hs => by
        simp only [List.mem_cons, List.mem_singleton, List.not_mem_nil, or_false, or_self] at hs
        exact hs ▸ Convertible_new)
  have hc := hr.cursor
  rw [hcap] at hc
  simp only [ParquetWriterT.new, List.length_nil, List.length_cons] at hcnt hc
  refine ⟨w, hrun, by omega, by omega, ?_⟩
  rw [buffered_rows_length]
  omega

/-- Claim C3, amended: for every capacity `c ≥ 1` and every `n`, after `n`
calls of `addShare` on a fresh writer (every call returns) exactly `n / c` row
groups have been emitted, each holding exactly `c` rows (fifteen column
writes of `c` values each), and exactly `n mod c` rows are buffered.  In
particular `n = c` gives exactly one row group and zero buffered rows, and
`n = c + 1` leaves exactly one row buffered when `c ≥ 2`. -/
theorem C3_row_group_counts (c : Nat) (hc : 1 ≤ c) (shares : List ShareBeam)
    (hconv : ∀ share ∈ shares, Convertible share) :
    ∃ w, addShares (ParquetWriterT.new c) shares = .ok w
      ∧ w.fileWriter_.length = shares.length / c
      ∧ (∀ g ∈ w.fileWriter_, FullGroup c g)
      ∧ w.shareNum_ = shares.length % c
      ∧ w.buffered.rows.length = shares.length % c
      ∧ (shares.length = c → w.fileWriter_.length = 1 ∧ w.shareNum_ = 0)
      ∧ (shares.length = c + 1 → 2 ≤ c → w.shareNum_ = 1) := by
  obtain ⟨w, hrun, hr, hcap, _, _, hcnt, hg⟩ :=
    addShares_run shares (ParquetWriterT.new c) (Ready_new c hc) hconv
  have hlt := hr.cursor
  rw [hcap] at hlt
  simp only [ParquetWriterT.new, List.length_nil, Nat.zero_mul, Nat.zero_add] at hcnt hlt
  have hdm : shares.length / c = w.fileWriter_.length ∧ shares.length % c = w.shareNum_ := by
    rw [Nat.div_mod_unique (by omega)]
    refine ⟨?_, hlt⟩
    rw [Nat.add_comm, Nat.mul_comm]
    exact hcnt
  refine ⟨w, hrun, hdm.1.symm, ?_, hdm.2.symm, ?_, ?_, ?_⟩
  · intro g hgw
    rcases hg g hgw with h | h
    · simp [ParquetWriterT.new] at h
    · exact h
  · rw [buffered_rows_length, hdm.2]
  · intro hn
    rw [← hdm.1, ← hdm.2, hn, Nat.div_self (by omega), Nat.mod_self]
    exact ⟨rfl, rfl⟩
  · intro hn h2
    rw [← hdm.2, hn, Nat.add_mod_left, Nat.mod_eq_of_lt (by omega)]

/-- Witness of claim C3, amended: three records and capacity 2 give one row
group and one buffered row. -/
theorem C3_row_group_counts_witness :
    1 ≤ 2 ∧
    ∃ w, addShares (ParquetWriterT.new 2) [ShareBeam.new, fixtureShare, ShareBeam.new] = .ok w
      ∧ w.fileWriter_.length = 1 ∧ w.shareNum_ = 1 :=
  ⟨by decide,
    (C3_row_group_counts 2 (by decide) [ShareBeam.new, fixtureShare, ShareBeam.new]
      Convertible_fixtures).imp (fun _ h => ⟨h.1, h.2.1, h.2.2.2.1⟩)⟩

/-! ## Theorems: BeamDifficulty, order -/

theorem scaled_lt (a b : Nat) (h : a < b) :
    (2 ^ 24 + a % 2 ^ 24) * 2 ^ (a / 2 ^ 24) < (2 ^ 24 + b % 2 ^ 24) * 2 ^ (b / 2 ^ 24) := by
  have hle : a / 2 ^ 24 ≤ b / 2 ^ 24 := Nat.div_le_div_right (Nat.le_of_lt h)
  have hma : a % 2 ^ 24 < 2 ^ 24 := Nat.mod_lt _ (by norm_num)
  have hmb : b % 2 ^ 24 < 2 ^ 24 := Nat.mod_lt _ (by norm_num)
  rcases Nat.eq_or_lt_of_le hle with heq | hlt
  · have hm : a % 2 ^ 24 < b % 2 ^ 24 := by omega
    rw [heq]
    exact Nat.mul_lt_mul_of_pos_right (by omega) (Nat.two_pow_pos _)
  · calc (2 ^ 24 + a % 2 ^ 24) * 2 ^ (a / 2 ^ 24)
        < (2 ^ 24 + 2 ^ 24) * 2 ^ (a / 2 ^ 24) :=
          Nat.mul_lt_mul_of_pos_right (by omega) (Nat.two_pow_pos _)
      _ = 2 ^ 24 * 2 ^ (a / 2 ^ 24 + 1) := by rw [Nat.pow_succ]; ring
      _ ≤ 2 ^ 24 * 2 ^ (b / 2 ^ 24) :=
          Nat.mul_le_mul_left _ (Nat.pow_le_pow_right (by norm_num) hlt)
      _ ≤ (2 ^ 24 + b % 2 ^ 24) * 2 ^ (b / 2 ^ 24) :=
          Nat.mul_le_mul_right _ (by omega)

theorem BeamBitsToDifficulty_scaled (packed : Nat) (h : packed < 2 ^ 32) (h0 : packed ≠ 0) :
    BeamBitsToDifficulty packed
      = (((2 ^ 24 + packed % 2 ^ 24) * 2 ^ (packed / 2 ^ 24) : Nat) : ℚ) / 2 ^ 24 := by
  rw [BeamBitsToDifficulty_eq packed h h0, zpow_sub₀ (by norm_num), zpow_natCast]
  push_cast
  norm_num
  ring

/-- Claim C19: `BeamBitsToDifficulty` is strictly increasing over the 32-bit
values: `a < b` gives `BeamBitsToDifficulty a < BeamBitsToDifficulty b`, also
when `a` and `b` have different order bytes and when `a = 0`. -/
theorem C19_BeamBitsToDifficulty_strictMono (a b : Nat) (hab : a < b) (hb : b < 2 ^ 32) :
    BeamBitsToDifficulty a < BeamBitsToDifficulty b := by
  have hb0 : b ≠ 0 := by omega
  rw [BeamBitsToDifficulty_scaled b hb hb0]
  by_cases ha0 : a = 0
  · subst ha0
    have : BeamBitsToDifficulty 0 = 0 := by simp [BeamBitsToDifficulty]
    rw [this]
    positivity
  · rw [BeamBitsToDifficulty_scaled a (by omega) ha0]
    apply div_lt_div_of_pos_right _ (by norm_num)
    exact_mod_cast scaled_lt a b hab

/-- Witness of claim C19 across an order-byte boundary: the largest value of
order 23 is below the smallest value of order 24. -/
theorem C19_BeamBitsToDifficulty_strictMono_witness :
    (0x17ffffff : Nat) < 0x18000000 ∧ (0x18000000 : Nat) < 2 ^ 32 ∧
    BeamBitsToDifficulty 0x17ffffff < BeamBitsToDifficulty 0x18000000 :=
  ⟨by norm_num, by norm_num,
    C19_BeamBitsToDifficulty_strictMono 0x17ffffff 0x18000000 (by norm_num) (by norm_num)⟩

/-! ## Theorems: ShareBeam, framing -/

/-- Claim C11, at the failing input of a 2-byte buffer (`size = 2`) that lies
in memory in front of the bytes `ea 0b`: the guard `size <= 0` lets it pass,
the version tag is read from four bytes, two of them beyond the given size,
and the payload parser is called with the length `-2`; the call returns what
the parser returns.  When no memory follows the buffer the read leaves the
memory.  A null pointer and `size = 0` are rejected. -/
theorem C11_short_buffer_not_rejected (P : Protobuf) (self : ShareBeam) :
    ShareBeam.UnserializeWithVersion P self (some [0x01, 0x00, 0xea, 0x0b]) 2
      = .ok (P.ParseFromArray [] (-2)) ∧
    ShareBeam.UnserializeWithVersion P self (some [0x01, 0x00]) 2 = .error .outOfBounds ∧
    (∀ size, ShareBeam.UnserializeWithVersion P self none size = .ok (false, self)) ∧
    (∀ mem, ShareBeam.UnserializeWithVersion P self (some mem) 0 = .ok (false, self)) := by
  refine ⟨?_, rfl, fun _ => rfl, fun _ => rfl⟩
  have hread : readU32 [0x01, 0x00, 0xea, 0x0b] = .ok ShareBeam.CURRENT_VERSION := by decide
  have hlen : toInt32 ((2 + (2 ^ 64 - 4)) % 2 ^ 64) = -2 := by decide
  unfold ShareBeam.UnserializeWithVersion
  simp only [hread, hlen, List.drop]
  rw [if_pos trivial]
  rcases P.ParseFromArray [] (-2) with ⟨flag, parsed⟩
  cases flag <;> rfl

theorem writeAt_zero_take (data : List Byte) (v : Nat) (h : 4 ≤ data.length) :
    (writeAt data 0 (le32 v)).take 4 = le32 v ∧ (writeAt data 0 (le32 v)).length = data.length := by
  unfold writeAt
  simp only [List.take_zero, List.nil_append, Nat.zero_add, le32_length]
  refine ⟨?_, ?_⟩
  · rw [List.take_append_of_le_length (by simp [le32_length])]
    exact List.take_of_length_le (by simp [le32_length])
  · simp only [List.length_append, le32_length, List.length_drop]
    omega

theorem writeAt_four_take (data payload : List Byte) (h : 4 ≤ data.length) :
    (writeAt data 4 payload).take 4 = data.take 4 := by
  unfold writeAt
  rw [List.append_assoc, List.take_append_of_le_length (by simp; omega)]
  simp

theorem SerializeToArrayWithLength_ok (P : Protobuf) (r : ShareBeam) (data payload : List Byte)
    (hsize : P.ByteSize r < 2 ^ 31)
    (hser : P.SerializeToArray r (P.ByteSize r) = some payload)
    (hlen : payload.length = P.ByteSize r) :
    ShareBeam.SerializeToArrayWithLength P r data
      = (true, le32 payload.length ++ payload, payload.length + 4) := by
  unfold ShareBeam.SerializeToArrayWithLength
  have hmod : P.ByteSize r % 2 ^ 32 = P.ByteSize r := Nat.mod_eq_of_lt (by omega)
  simp only [hmod, hser]
  rw [← hlen, writeAt_tag_payload]
  have : (payload.length + 4) % 2 ^ 32 = payload.length + 4 := Nat.mod_eq_of_lt (by omega)
  rw [this]

/-- Claim C12: for every record whose structured serialization succeeds with
payload bytes `payload` of length `L = ByteSize` (an `int`),
`SerializeToArrayWithLength` returns `true`, reports the size `L + 4` and
leaves in `data` the 4-byte little-endian encoding of `L` (read back as `L`)
followed by exactly `payload`; these are the bytes that
`SerializeToArrayWithVersion` places after its 4-byte version tag. -/
theorem C12_length_framing (P : Protobuf) (r : ShareBeam) (data payload : List Byte)
    (hsize : P.ByteSize r < 2 ^ 31)
    (hser : P.SerializeToArray r (P.ByteSize r) = some payload)
    (hlen : payload.length = P.ByteSize r) :
    ShareBeam.SerializeToArrayWithLength P r data
      = (true, le32 payload.length ++ payload, payload.length + 4) ∧
    readU32 (ShareBeam.SerializeToArrayWithLength P r data).2.1 = .ok payload.length ∧
    (ShareBeam.SerializeToArrayWithLength P r data).2.1.drop 4 = payload ∧
    (ShareBeam.SerializeToArrayWithVersion P r data).2.1.drop 4 = payload ∧
    (ShareBeam.SerializeToArrayWithVersion P r data).2.1.take 4 = le32 r.version := by
  rw [SerializeToArrayWithLength_ok P r data payload hsize hser hlen,
    SerializeToArrayWithVersion_ok P r data payload hsize hser hlen]
  refine ⟨rfl, ?_, by simp [le32], by simp [le32], by simp [le32]⟩
  rw [readU32_le32_append, Nat.mod_eq_of_lt (by omega)]

/-- Witness of claim C12: the record `fixtureShare` under the payload format
`fixtureProtobuf` (a payload of 12 bytes). -/
theorem C12_length_framing_witness :
    ShareBeam.SerializeToArrayWithLength fixtureProtobuf fixtureShare []
      = (true,
          le32 12 ++ (le32 fixtureShare.version ++ le32 fixtureShare.blockbits
            ++ le32 fixtureShare.bitsreached), 16) :=
  (C12_length_framing fixtureProtobuf fixtureShare []
    (le32 fixtureShare.version ++ le32 fixtureShare.blockbits ++ le32 fixtureShare.bitsreached)
    (by decide) rfl rfl).1

/-- Claim C13, as stated, fails: when the structured serialization fails, both
encoders return `false`, but the caller's `data`, empty before the call, is
left as a resized buffer of `4 + 12` bytes that holds the 4-byte tag and an
unwritten payload area, and `size` is left at 12. -/
theorem C13_partial_buffer_counterexample :
    ShareBeam.SerializeToArrayWithVersion failingProtobuf fixtureShare []
      = (false, le32 ShareBeam.CURRENT_VERSION ++ List.replicate 12 0, 12) ∧
    ShareBeam.SerializeToArrayWithLength failingProtobuf fixtureShare []
      = (false, le32 12 ++ List.replicate 12 0, 12) := by
  constructor <;> decide

/-- Claim C13, amended: whenever the structured serialization fails (for a
message size `ByteSize` that is an `int`), `SerializeToArrayWithLength` and
`SerializeToArrayWithVersion` each return the explicit failure `false`; the
output `data` is left resized to `ByteSize + 4` bytes that begin with the
4-byte tag (the length, respectively the version), and `size` is left equal to
`ByteSize`. -/
theorem C13_failure_path (P : Protobuf) (r : ShareBeam) (data : List Byte)
    (hsize : P.ByteSize r < 2 ^ 31)
    (hser : P.SerializeToArray r (P.ByteSize r) = none) :
    ((ShareBeam.SerializeToArrayWithLength P r data).1 = false ∧
      (ShareBeam.SerializeToArrayWithLength P r data).2.1.length = P.ByteSize r + 4 ∧
      (ShareBeam.SerializeToArrayWithLength P r data).2.1.take 4 = le32 (P.ByteSize r) ∧
      (ShareBeam.SerializeToArrayWithLength P r data).2.2 = P.ByteSize r) ∧
    ((ShareBeam.SerializeToArrayWithVersion P r data).1 = false ∧
      (ShareBeam.SerializeToArrayWithVersion P r data).2.1.length = P.ByteSize r + 4 ∧
      (ShareBeam.SerializeToArrayWithVersion P r data).2.1.take 4 = le32 r.version ∧
      (ShareBeam.SerializeToArrayWithVersion P r data).2.2 = P.ByteSize r) := by
  have hmod : P.ByteSize r % 2 ^ 32 = P.ByteSize r := Nat.mod_eq_of_lt (by omega)
  have hres : 4 ≤ (resize data (P.ByteSize r + 4)).length := by
    rw [resize_length]
    omega
  have hL : ShareBeam.SerializeToArrayWithLength P r data
      = (false, writeAt (resize data (P.ByteSize r + 4)) 0 (le32 (P.ByteSize r)), P.ByteSize r) := by
    unfold ShareBeam.SerializeToArrayWithLength
    simp only [hmod, hser]
  have hV : ShareBeam.SerializeToArrayWithVersion P r data
      = (false, writeAt (resize data (P.ByteSize r + 4)) 0 (le32 r.version), P.ByteSize r) := by
    unfold ShareBeam.SerializeToArrayWithVersion
    simp only [hmod, hser]
  rw [hL, hV]
  refine ⟨⟨rfl, ?_, (writeAt_zero_take _ _ hres).1, rfl⟩,
    ⟨rfl, ?_, (writeAt_zero_take _ _ hres).1, rfl⟩⟩
  · show (writeAt _ 0 _).length = _
    rw [(writeAt_zero_take _ _ hres).2, resize_length]
  · show (writeAt _ 0 _).length = _
    rw [(writeAt_zero_take _ _ hres).2, resize_length]

/-- Witness of claim C13, amended: the record `fixtureShare` under
`failingProtobuf`. -/
theorem C13_failure_path_witness :
    (ShareBeam.SerializeToArrayWithVersion failingProtobuf fixtureShare []).1 = false ∧
    (ShareBeam.SerializeToArrayWithVersion failingProtobuf fixtureShare []).2.1.length = 12 + 4 :=
  ⟨(C13_failure_path failingProtobuf fixtureShare [] (by decide) rfl).2.1,
   (C13_failure_path failingProtobuf fixtureShare [] (by decide) rfl).2.2.1⟩

theorem SerializeToArrayWithVersion_tag (P : Protobuf) (r : ShareBeam) (data : List Byte) :
    (ShareBeam.SerializeToArrayWithVersion P r data).2.1.take 4 = le32 r.version ∧
    4 ≤ (ShareBeam.SerializeToArrayWithVersion P r data).2.1.length := by
  have hres : 4 ≤ (resize data (P.ByteSize r % 2 ^ 32 + 4)).length := by
    rw [resize_length]
    omega
  have h0 := writeAt_zero_take (resize data (P.ByteSize r % 2 ^ 32 + 4)) r.version hres
  unfold ShareBeam.SerializeToArrayWithVersion
  cases hser : P.SerializeToArray r (P.ByteSize r % 2 ^ 32) with
  | none =>
    simp only [hser]
    refine ⟨h0.1, ?_⟩
    rw [h0.2]
    exact hres
  | some payload =>
    simp only [hser]
    have h4 : 4 ≤ (writeAt (resize data (P.ByteSize r % 2 ^ 32 + 4)) 0 (le32 r.version)).length := by
      rw [h0.2]
      exact hres
    have ht := writeAt_four_take _ payload h4
    refine ⟨by rw [ht, h0.1], ?_⟩
    have hl := congrArg List.length ht
    rw [List.length_take, List.length_take] at hl
    omega

theorem readU32_of_take (mem : List Byte) (v : Nat) (h : mem.take 4 = le32 v) :
    readU32 mem = .ok (v % 2 ^ 32) := by
  have := readU32_le32_append v (mem.drop 4)
  rw [← h, List.take_append_drop] at this
  exact this

/-- Claim C20: `SerializeToArrayWithVersion` writes the record's own `version`
field as the 4-byte tag, on the success and on the failure path alike; so for
every record whose (32-bit) version differs from `CURRENT_VERSION` the bytes it
produces are rejected by `UnserializeWithVersion`, for the size it reports and
for every other size, whatever the payload parser.  The default-constructed
`ShareBeam` (version 0) is such a record. -/
theorem C20_own_version_tag (P : Protobuf) (r self : ShareBeam) (data : List Byte) (size : Nat)
    (hv : r.version < 2 ^ 32) (hne : r.version ≠ ShareBeam.CURRENT_VERSION) :
    (ShareBeam.SerializeToArrayWithVersion P r data).2.1.take 4 = le32 r.version ∧
    readU32 (ShareBeam.SerializeToArrayWithVersion P r data).2.1 = .ok r.version ∧
    ShareBeam.UnserializeWithVersion P self
        (some (ShareBeam.SerializeToArrayWithVersion P r data).2.1)
        (ShareBeam.SerializeToArrayWithVersion P r data).2.2 = .ok (false, self) ∧
    ShareBeam.UnserializeWithVersion P self
        (some (ShareBeam.SerializeToArrayWithVersion P r data).2.1) size = .ok (false, self) ∧
    ShareBeam.new.version = 0 ∧ ShareBeam.new.version ≠ ShareBeam.CURRENT_VERSION := by
  obtain ⟨htag, hlen⟩ := SerializeToArrayWithVersion_tag P r data
  have hread : readU32 (ShareBeam.SerializeToArrayWithVersion P r data).2.1 = .ok r.version := by
    rw [readU32_of_take _ _ htag, Nat.mod_eq_of_lt hv]
  have hrej : ∀ n, ShareBeam.UnserializeWithVersion P self
      (some (ShareBeam.SerializeToArrayWithVersion P r data).2.1) n = .ok (false, self) := by
    intro n
    unfold ShareBeam.UnserializeWithVersion
    simp only [hread]
    split <;> rfl
  exact ⟨htag, hread, hrej _, hrej size, rfl, by decide⟩

/-- Witness of claim C20: the default-constructed record under the payload
format `fixtureProtobuf`: its bytes start with the tag 0 and are rejected. -/
theorem C20_own_version_tag_witness :
    ShareBeam.UnserializeWithVersion fixtureProtobuf fixtureShare
        (some (ShareBeam.SerializeToArrayWithVersion fixtureProtobuf ShareBeam.new []).2.1)
        (ShareBeam.SerializeToArrayWithVersion fixtureProtobuf ShareBeam.new []).2.2
      = .ok (false, fixtureShare) :=
  (C20_own_version_tag fixtureProtobuf ShareBeam.new fixtureShare [] 0 (by decide) (by decide)).2.2.1

/-! ## Theorems: ParquetWriterT, flush and destructor -/

theorem CursorInBuffers_new (c : Nat) : CursorInBuffers (ParquetWriterT.new c) := by
  constructor <;> simp [ParquetWriterT.new]

/-- Claim C14: `setupSchema` defines, in this order, index:int64,
worker_id:int64, user_id:int32, status:int32, timestamp:int64,
ip:byte-array/utf8, job_id:int64, share_diff:int64, network_diff:double,
height:int32, nonce:int64, session_id:int32, output_hash:int32,
ext_user_id:int32, diff_reached:double; and for every writer state
`flushShares` appends one row group of exactly fifteen column writes, the
`i`-th one with the writer type of the `i`-th schema column and the buffer of
that column, each passed the count `shareNum_` and, the cursor being within
the buffers, each carrying exactly `shareNum_` values. -/
theorem C14_schema_and_column_writes (w : ParquetWriterT) :
    setupSchema =
      [("index", .INT64), ("worker_id", .INT64), ("user_id", .INT32), ("status", .INT32),
       ("timestamp", .INT64), ("ip", .BYTE_ARRAY_UTF8), ("job_id", .INT64),
       ("share_diff", .INT64), ("network_diff", .DOUBLE), ("height", .INT32),
       ("nonce", .INT64), ("session_id", .INT32), ("output_hash", .INT32),
       ("ext_user_id", .INT32), ("diff_reached", .DOUBLE)] ∧
    ∃ g : RowGroup,
      (flushShares w).fileWriter_ = w.fileWriter_ ++ [g] ∧
      g = [ ⟨w.shareNum_, .int64 (w.indexs_.take w.shareNum_)⟩,
            ⟨w.shareNum_, .int64 (w.workerIds_.take w.shareNum_)⟩,
            ⟨w.shareNum_, .int32 (w.userIds_.take w.shareNum_)⟩,
            ⟨w.shareNum_, .int32 (w.status_.take w.shareNum_)⟩,
            ⟨w.shareNum_, .int64 (w.timestamps_.take w.shareNum_)⟩,
            ⟨w.shareNum_, .byteArray (w.ip_.take w.shareNum_)⟩,
            ⟨w.shareNum_, .int64 (w.jobIds_.take w.shareNum_)⟩,
            ⟨w.shareNum_, .int64 (w.shareDiff_.take w.shareNum_)⟩,
            ⟨w.shareNum_, .double (w.networkDiff_.take w.shareNum_)⟩,
            ⟨w.shareNum_, .int32 (w.height_.take w.shareNum_)⟩,
            ⟨w.shareNum_, .int64 (w.nonce_.take w.shareNum_)⟩,
            ⟨w.shareNum_, .int32 (w.sessionId_.take w.shareNum_)⟩,
            ⟨w.shareNum_, .int32 (w.outputHash_.take w.shareNum_)⟩,
            ⟨w.shareNum_, .int32 (w.extUserId_.take w.shareNum_)⟩,
            ⟨w.shareNum_, .double (w.diffReached_.take w.shareNum_)⟩ ] ∧
      g.length = 15 ∧
      g.map (fun col => col.values.type) = setupSchema.map Prod.snd ∧
      (∀ col ∈ g, col.num_values = w.shareNum_) ∧
      (CursorInBuffers w → ∀ col ∈ g, col.values.length = w.shareNum_) := by
  refine ⟨rfl, _, rfl, rfl, rfl, rfl, ?_, ?_⟩
  · intro col hcol
    simp only [List.mem_cons, List.mem_singleton, List.not_mem_nil, or_false] at hcol
    rcases hcol with h | h | h | h | h | h | h | h | h | h | h | h | h | h | h <;>
    · subst h
      rfl
  · intro hw col hcol
    simp only [List.mem_cons, List.mem_singleton, List.not_mem_nil, or_false] at hcol
    have h1 := hw.indexs
    have h2 := hw.workerIds
    have h3 := hw.userIds
    have h4 := hw.status
    have h5 := hw.timestamps
    have h6 := hw.ip
    have h7 := hw.jobIds
    have h8 := hw.shareDiff
    have h9 := hw.networkDiff
    have h10 := hw.height
    have h11 := hw.nonce
    have h12 := hw.sessionId
    have h13 := hw.outputHash
    have h14 := hw.extUserId
    have h15 := hw.diffReached
    rcases hcol with h | h | h | h | h | h | h | h | h | h | h | h | h | h | h <;>
    · subst h
      simp only [Values.length, List.length_take]
      omega

/-- Witness of claim C14: a fresh writer of capacity 2 has its cursor within
its buffers, and its flush appends one row group of fifteen column writes. -/
theorem C14_schema_and_column_writes_witness :
    CursorInBuffers (ParquetWriterT.new 2) ∧
    ∃ g : RowGroup,
      (flushShares (ParquetWriterT.new 2)).fileWriter_ = (ParquetWriterT.new 2).fileWriter_ ++ [g] ∧
      g.length = 15 ∧ ∀ col ∈ g, col.values.length = (ParquetWriterT.new 2).shareNum_ :=
  ⟨CursorInBuffers_new 2,
    (C14_schema_and_column_writes (ParquetWriterT.new 2)).2.imp
      (fun _ h => ⟨h.1, h.2.2.1, h.2.2.2.2.2 (CursorInBuffers_new 2)⟩)⟩

theorem buffered_numRows (w : ParquetWriterT) : w.buffered.numRows = w.shareNum_ := by
  rw [buffered_eq]
  rfl

theorem rows_length (g : RowGroup) : g.rows.length = g.numRows := by
  simp [RowGroup.rows]

/-- Claim C15, as stated, fails: on a fresh writer of capacity 2, whose cursor
is 0, `flushShares` appends a row group of zero rows to the output, so the
output and the writer state change. -/
theorem C15_empty_flush_counterexample :
    (ParquetWriterT.new 2).shareNum_ = 0 ∧
    (ParquetWriterT.new 2).fileWriter_ = [] ∧
    (flushShares (ParquetWriterT.new 2)).fileWriter_.length = 1 ∧
    (∀ g ∈ (flushShares (ParquetWriterT.new 2)).fileWriter_, g.numRows = 0 ∧ g.rows = []) ∧
    flushShares (ParquetWriterT.new 2) ≠ ParquetWriterT.new 2 := by
  refine ⟨rfl, rfl, rfl, ?_, ?_⟩
  · intro g hg
    rw [flushShares_fileWriter] at hg
    simp only [ParquetWriterT.new, List.nil_append, List.mem_singleton] at hg
    subst hg
    have hn := buffered_numRows (ParquetWriterT.new 2)
    refine ⟨hn, List.eq_nil_of_length_eq_zero ?_⟩
    rw [rows_length]
    exact hn
  · intro h
    have := congrArg (fun w => w.fileWriter_.length) h
    exact absurd this (by decide)

/-- Claim C15, amended: `flushShares` itself always appends a row group, an
empty one when the cursor is 0; its callers guard it.  The destructor leaves
the output unchanged when the cursor is 0, and in every run of `addShare`
calls on a fresh writer of capacity `c ≥ 1` (every call returns) followed by
the destructor, every emitted row group has at least one row: an empty row
group is never emitted. -/
theorem C15_no_empty_row_group (c : Nat) (hc : 1 ≤ c) (shares : List ShareBeam)
    (hconv : ∀ share ∈ shares, Convertible share) :
    (∀ w : ParquetWriterT, w.shareNum_ = 0 →
      (flushShares w).fileWriter_ = w.fileWriter_ ++ [w.buffered] ∧ w.buffered.numRows = 0) ∧
    (∀ w : ParquetWriterT, w.shareNum_ = 0 → (destructor w).fileWriter_ = w.fileWriter_) ∧
    ∃ w, addShares (ParquetWriterT.new c) shares = .ok w ∧
      ∀ g ∈ (destructor w).fileWriter_, 0 < g.numRows ∧ g.rows ≠ [] := by
  refine ⟨fun w h0 => ⟨flushShares_fileWriter w, by rw [buffered_numRows, h0]⟩, ?_, ?_⟩
  · intro w h0
    simp [destructor, h0]
  · obtain ⟨w, hrun, _, _, _, _, _, hg⟩ :=
      addShares_run shares (ParquetWriterT.new c) (Ready_new c hc) hconv
    have hpos : ∀ g : RowGroup, 0 < g.numRows → 0 < g.numRows ∧ g.rows ≠ [] := by
      intro g h
      refine ⟨h, fun hnil => ?_⟩
      have := rows_length g
      rw [hnil] at this
      simp only [List.length_nil] at this
      omega
    have hfile : ∀ g ∈ w.fileWriter_, 0 < g.numRows := by
      intro g hgw
      rcases hg g hgw with h | h
      · simp [ParquetWriterT.new] at h
      · have := h.2.1
        simp only [ParquetWriterT.new] at this
        omega
    refine ⟨w, hrun, fun g hgd => hpos g ?_⟩
    by_cases hk : w.shareNum_ > 0
    · have hd : (destructor w).fileWriter_ = w.fileWriter_ ++ [w.buffered] := by
        simp only [destructor, hk, if_true]
        exact flushShares_fileWriter w
      rw [hd, List.mem_append, List.mem_singleton] at hgd
      rcases hgd with h | h
      · exact hfile g h
      · rw [h, buffered_numRows]
        exact hk
    · have hd : (destructor w).fileWriter_ = w.fileWriter_ := by
        simp only [destructor, hk, if_false]
      rw [hd] at hgd
      exact hfile g hgd

/-- Witness of claim C15, amended: three records and capacity 2; both emitted
row groups have rows. -/
theorem C15_no_empty_row_group_witness :
    1 ≤ 2 ∧
    ∃ w, addShares (ParquetWriterT.new 2) [ShareBeam.new, fixtureShare, ShareBeam.new] = .ok w ∧
      ∀ g ∈ (destructor w).fileWriter_, 0 < g.numRows ∧ g.rows ≠ [] :=
  ⟨by decide,
    (C15_no_empty_row_group 2 (by decide) [ShareBeam.new, fixtureShare, ShareBeam.new]
      Convertible_fixtures).2.2⟩

theorem fileRows_length (c : Nat) (file : List RowGroup)
    (h : ∀ g ∈ file, g.rows.length = c) : (fileRows file).length = file.length * c := by
  induction file with
  | nil => simp [fileRows]
  | cons g file ih =>
    have hg := h g (List.mem_cons_self _ _)
    have hrest := ih (fun g1 h1 => h g1 (List.mem_cons_of_mem _ h1))
    have e : fileRows (g :: file) = g.rows ++ fileRows file := by simp [fileRows]
    rw [e, List.length_append, hg, hrest, List.length_cons, Nat.add_mul]
    omega

theorem buffered_rows_run (c : Nat) (hc : 1 ≤ c) (shares : List ShareBeam)
    (hconv : ∀ share ∈ shares, Convertible share) :
    ∃ w, addShares (ParquetWriterT.new c) shares = .ok w
      ∧ w.shareNum_ = shares.length % c
      ∧ w.buffered.rows = (rowsOf 0 shares).drop (shares.length - shares.length % c) := by
  obtain ⟨w, hrun, hr, hcap, _, hrows, hcnt, hg⟩ :=
    addShares_run shares (ParquetWriterT.new c) (Ready_new c hc) hconv
  have hlt := hr.cursor
  rw [hcap] at hlt
  simp only [ParquetWriterT.new, List.length_nil, Nat.zero_mul, Nat.zero_add] at hcnt hlt
  have hmod : shares.length % c = w.shareNum_ := by
    rw [← hcnt, Nat.mul_add_mod_of_lt hlt]
  have hfl : (fileRows w.fileWriter_).length = w.fileWriter_.length * c := by
    apply fileRows_length
    intro g hgw
    rcases hg g hgw with h | h
    · simp [ParquetWriterT.new] at h
    · exact h.2.2.1
  have hall : fileRows w.fileWriter_ ++ w.buffered.rows = rowsOf 0 shares := by
    have := hrows
    rw [allRows_new] at this
    exact this
  refine ⟨w, hrun, hmod.symm, ?_⟩
  have hdrop : shares.length - shares.length % c = (fileRows w.fileWriter_).length := by
    rw [hfl, hmod]
    omega
  rw [hdrop, ← hall, List.drop_left]

/-- Claim C16: for every writer state with `k = shareNum_` buffered rows, the
destructor emits, when `k > 0`, exactly one final row group: the fifteen
column writes of the first `k` slots of the buffers as they are before the
release, which a reader sees as `k` rows in slot order; it emits nothing when
`k = 0`; in both cases every column buffer is released afterwards.  After `n`
records appended to a fresh writer of capacity `c ≥ 1` (every call returns)
the buffered rows are the rows of the last `n mod c` records, in append
order. -/
theorem C16_destructor_final_flush (w : ParquetWriterT) :
    (0 < w.shareNum_ →
      (destructor w).fileWriter_ = w.fileWriter_ ++ [w.buffered] ∧
      fileRows (destructor w).fileWriter_ = fileRows w.fileWriter_ ++ w.buffered.rows ∧
      w.buffered.numRows = w.shareNum_ ∧
      w.buffered.rows.length = w.shareNum_) ∧
    (w.shareNum_ = 0 → (destructor w).fileWriter_ = w.fileWriter_) ∧
    w.buffered =
      [ ⟨w.shareNum_, .int64 (w.indexs_.take w.shareNum_)⟩,
        ⟨w.shareNum_, .int64 (w.workerIds_.take w.shareNum_)⟩,
        ⟨w.shareNum_, .int32 (w.userIds_.take w.shareNum_)⟩,
        ⟨w.shareNum_, .int32 (w.status_.take w.shareNum_)⟩,
        ⟨w.shareNum_, .int64 (w.timestamps_.take w.shareNum_)⟩,
        ⟨w.shareNum_, .byteArray (w.ip_.take w.shareNum_)⟩,
        ⟨w.shareNum_, .int64 (w.jobIds_.take w.shareNum_)⟩,
        ⟨w.shareNum_, .int64 (w.shareDiff_.take w.shareNum_)⟩,
        ⟨w.shareNum_, .double (w.networkDiff_.take w.shareNum_)⟩,
        ⟨w.shareNum_, .int32 (w.height_.take w.shareNum_)⟩,
        ⟨w.shareNum_, .int64 (w.nonce_.take w.shareNum_)⟩,
        ⟨w.shareNum_, .int32 (w.sessionId_.take w.shareNum_)⟩,
        ⟨w.shareNum_, .int32 (w.outputHash_.take w.shareNum_)⟩,
        ⟨w.shareNum_, .int32 (w.extUserId_.take w.shareNum_)⟩,
        ⟨w.shareNum_, .double (w.diffReached_.take w.shareNum_)⟩ ] ∧
    ((destructor w).indexs_ = [] ∧ (destructor w).workerIds_ = [] ∧ (destructor w).userIds_ = [] ∧
      (destructor w).status_ = [] ∧ (destructor w).timestamps_ = [] ∧ (destructor w).ip_ = [] ∧
      (destructor w).ipStr_ = [] ∧ (destructor w).jobIds_ = [] ∧ (destructor w).shareDiff_ = [] ∧
      (destructor w).networkDiff_ = [] ∧ (destructor w).height_ = [] ∧ (destructor w).nonce_ = [] ∧
      (destructor w).sessionId_ = [] ∧ (destructor w).outputHash_ = [] ∧
      (destructor w).extUserId_ = [] ∧ (destructor w).diffReached_ = []) ∧
    (∀ (c : Nat) (shares : List ShareBeam), 1 ≤ c → (∀ share ∈ shares, Convertible share) →
      ∃ w1, addShares (ParquetWriterT.new c) shares = .ok w1
        ∧ w1.shareNum_ = shares.length % c
        ∧ w1.buffered.rows = (rowsOf 0 shares).drop (shares.length - shares.length % c)) := by
  refine ⟨fun hk => ?_, fun h0 => ?_, buffered_eq w, ?_,
    fun c shares hc hconv => buffered_rows_run c hc shares hconv⟩
  · have hd : (destructor w).fileWriter_ = w.fileWriter_ ++ [w.buffered] := by
      simp only [destructor, gt_iff_lt, hk, if_true]
      exact flushShares_fileWriter w
    refine ⟨hd, ?_, buffered_numRows w, buffered_rows_length w⟩
    rw [hd, fileRows_append]
  · simp [destructor, h0]
  · simp [destructor]

/-- Witness of claim C16: a writer of capacity 2 after one record: the
destructor emits one row group with the row of that record. -/
theorem C16_destructor_final_flush_witness :
    0 < (stored (ParquetWriterT.new 2) ShareBeam.new 0).shareNum_ ∧
    (destructor (stored (ParquetWriterT.new 2) ShareBeam.new 0)).fileWriter_
      = (stored (ParquetWriterT.new 2) ShareBeam.new 0).fileWriter_
          ++ [(stored (ParquetWriterT.new 2) ShareBeam.new 0).buffered] :=
  ⟨by decide,
    ((C16_destructor_final_flush (stored (ParquetWriterT.new 2) ShareBeam.new 0)).1
      (by decide)).1⟩

/-! ## Theorems: ParquetWriterT, the slot written by addShare -/

theorem addShare_buffers (w : ParquetWriterT) (hw : Ready w) (share : ShareBeam) (d : Double)
    (hd : BeamDifficulty.BitcoinStyleBitsToDifficulty share.bitsreached = .ok d) :
    ∃ w1, addShare w share = .ok w1
      ∧ w1.index_ = w.index_ + 1
      ∧ w1.indexs_ = w.indexs_.set w.shareNum_ (w.index_ + 1)
      ∧ w1.workerIds_ = w.workerIds_.set w.shareNum_ share.workerhashid
      ∧ w1.userIds_ = w.userIds_.set w.shareNum_ share.userid
      ∧ w1.status_ = w.status_.set w.shareNum_ share.status
      ∧ w1.timestamps_ = w.timestamps_.set w.shareNum_ share.timestamp
      ∧ w1.ip_ = w.ip_.set w.shareNum_ share.ip
      ∧ w1.ipStr_ = w.ipStr_.set w.shareNum_ share.ip
      ∧ w1.jobIds_ = w.jobIds_.set w.shareNum_ share.inputprefix
      ∧ w1.shareDiff_ = w.shareDiff_.set w.shareNum_ share.sharediff
      ∧ w1.networkDiff_
          = w.networkDiff_.set w.shareNum_ (BeamDifficulty.BeamBitsToDifficulty share.blockbits)
      ∧ w1.height_ = w.height_.set w.shareNum_ share.height
      ∧ w1.nonce_ = w.nonce_.set w.shareNum_ share.nonce
      ∧ w1.sessionId_ = w.sessionId_.set w.shareNum_ share.sessionid
      ∧ w1.outputHash_ = w.outputHash_.set w.shareNum_ share.outputhash
      ∧ w1.extUserId_ = w.extUserId_.set w.shareNum_ share.extuserid
      ∧ w1.diffReached_ = w.diffReached_.set w.shareNum_ d := by
  rw [addShare_eq w hw share d hd]
  by_cases hfull : (stored w share d).shareNum_ ≥ (stored w share d).DEFAULT_NUM_ROWS_PER_ROW_GROUP
  · rw [if_pos hfull]
    exact ⟨_, rfl, rfl, rfl, rfl, rfl, rfl, rfl, rfl, rfl, rfl, rfl, rfl, rfl, rfl, rfl, rfl, rfl,
      rfl⟩
  · rw [if_neg hfull]
    exact ⟨_, rfl, rfl, rfl, rfl, rfl, rfl, rfl, rfl, rfl, rfl, rfl, rfl, rfl, rfl, rfl, rfl, rfl,
      rfl⟩

theorem getElem?_set_at {α : Type} (l : List α) (n : Nat) (v : α) (c : Nat)
    (hl : l.length = c) (hn : n < c) :
    (l.set n v)[n]? = some v ∧ ∀ i, i ≠ n → (l.set n v)[i]? = l[i]? :=
  ⟨List.getElem?_set_self (by omega), fun _ hi => List.getElem?_set_ne (Ne.symm hi)⟩

/-- Calls that return: for every writer state with the cursor below the
capacity (and buffers of that capacity) and every record whose conversion of
`bitsreached` returns (with value `d`), `addShare` returns and has written at
the slot `shareNum_` of the state it was called on: index = previous counter
+ 1, worker_id = workerhashid, user_id = userid, status = status, timestamp =
timestamp, ip = the record's ip string as it is, job_id = inputprefix,
share_diff = sharediff, network_diff = `BeamBitsToDifficulty blockbits`,
height = height, nonce = nonce, session_id = sessionid, output_hash =
outputhash, ext_user_id = extuserid, diff_reached = `d`; every other slot of
every buffer is unchanged.  A record with `blockbits = 0` and
`bitsreached = 0` gets 0 in both derived columns. -/
theorem returning_addShare_row (w : ParquetWriterT) (hw : Ready w) (share : ShareBeam)
    (d : Double)
    (hd : BeamDifficulty.BitcoinStyleBitsToDifficulty share.bitsreached = .ok d) :
    ∃ w1, addShare w share = .ok w1 ∧
      (w1.indexs_[w.shareNum_]? = some (w.index_ + 1)
        ∧ w1.workerIds_[w.shareNum_]? = some share.workerhashid
        ∧ w1.userIds_[w.shareNum_]? = some share.userid
        ∧ w1.status_[w.shareNum_]? = some share.status
        ∧ w1.timestamps_[w.shareNum_]? = some share.timestamp
        ∧ w1.ip_[w.shareNum_]? = some share.ip
        ∧ w1.ipStr_[w.shareNum_]? = some share.ip
        ∧ w1.jobIds_[w.shareNum_]? = some share.inputprefix
        ∧ w1.shareDiff_[w.shareNum_]? = some share.sharediff
        ∧ w1.networkDiff_[w.shareNum_]?
            = some (BeamDifficulty.BeamBitsToDifficulty share.blockbits)
        ∧ w1.height_[w.shareNum_]? = some share.height
        ∧ w1.nonce_[w.shareNum_]? = some share.nonce
        ∧ w1.sessionId_[w.shareNum_]? = some share.sessionid
        ∧ w1.outputHash_[w.shareNum_]? = some share.outputhash
        ∧ w1.extUserId_[w.shareNum_]? = some share.extuserid
        ∧ w1.diffReached_[w.shareNum_]? = some d) ∧
      (∀ i, i ≠ w.shareNum_ →
        w1.indexs_[i]? = w.indexs_[i]?
        ∧ w1.workerIds_[i]? = w.workerIds_[i]?
        ∧ w1.userIds_[i]? = w.userIds_[i]?
        ∧ w1.status_[i]? = w.status_[i]?
        ∧ w1.timestamps_[i]? = w.timestamps_[i]?
        ∧ w1.ip_[i]? = w.ip_[i]?
        ∧ w1.ipStr_[i]? = w.ipStr_[i]?
        ∧ w1.jobIds_[i]? = w.jobIds_[i]?
        ∧ w1.shareDiff_[i]? = w.shareDiff_[i]?
        ∧ w1.networkDiff_[i]? = w.networkDiff_[i]?
        ∧ w1.height_[i]? = w.height_[i]?
        ∧ w1.nonce_[i]? = w.nonce_[i]?
        ∧ w1.sessionId_[i]? = w.sessionId_[i]?
        ∧ w1.outputHash_[i]? = w.outputHash_[i]?
        ∧ w1.extUserId_[i]? = w.extUserId_[i]?
        ∧ w1.diffReached_[i]? = w.diffReached_[i]?) ∧
      (share.blockbits = 0 → share.bitsreached = 0 →
        w1.networkDiff_[w.shareNum_]? = some 0 ∧ w1.diffReached_[w.shareNum_]? = some 0) := by
  obtain ⟨w1, hrun, _, e1, e2, e3, e4, e5, e6, e7, e8, e9, e10, e11, e12, e13, e14, e15, e16⟩ :=
    addShare_buffers w hw share d hd
  have hc := hw.cursor
  have s1 := getElem?_set_at w.indexs_ w.shareNum_ (w.index_ + 1) _ hw.indexs hc
  have s2 := getElem?_set_at w.workerIds_ w.shareNum_ share.workerhashid _ hw.workerIds hc
  have s3 := getElem?_set_at w.userIds_ w.shareNum_ share.userid _ hw.userIds hc
  have s4 := getElem?_set_at w.status_ w.shareNum_ share.status _ hw.status hc
  have s5 := getElem?_set_at w.timestamps_ w.shareNum_ share.timestamp _ hw.timestamps hc
  have s6 := getElem?_set_at w.ip_ w.shareNum_ share.ip _ hw.ip hc
  have s7 := getElem?_set_at w.ipStr_ w.shareNum_ share.ip _ hw.ipStr hc
  have s8 := getElem?_set_at w.jobIds_ w.shareNum_ share.inputprefix _ hw.jobIds hc
  have s9 := getElem?_set_at w.shareDiff_ w.shareNum_ share.sharediff _ hw.shareDiff hc
  have s10 := getElem?_set_at w.networkDiff_ w.shareNum_
    (BeamDifficulty.BeamBitsToDifficulty share.blockbits) _ hw.networkDiff hc
  have s11 := getElem?_set_at w.height_ w.shareNum_ share.height _ hw.height hc
  have s12 := getElem?_set_at w.nonce_ w.shareNum_ share.nonce _ hw.nonce hc
  have s13 := getElem?_set_at w.sessionId_ w.shareNum_ share.sessionid _ hw.sessionId hc
  have s14 := getElem?_set_at w.outputHash_ w.shareNum_ share.outputhash _ hw.outputHash hc
  have s15 := getElem?_set_at w.extUserId_ w.shareNum_ share.extuserid _ hw.extUserId hc
  have s16 := getElem?_set_at w.diffReached_ w.shareNum_ d _ hw.diffReached hc
  rw [← e1] at s1
  rw [← e2] at s2
  rw [← e3] at s3
  rw [← e4] at s4
  rw [← e5] at s5
  rw [← e6] at s6
  rw [← e7] at s7
  rw [← e8] at s8
  rw [← e9] at s9
  rw [← e10] at s10
  rw [← e11] at s11
  rw [← e12] at s12
  rw [← e13] at s13
  rw [← e14] at s14
  rw [← e15] at s15
  rw [← e16] at s16
  refine ⟨w1, hrun,
    ⟨s1.1, s2.1, s3.1, s4.1, s5.1, s6.1, s7.1, s8.1, s9.1, s10.1, s11.1, s12.1, s13.1, s14.1,
      s15.1, s16.1⟩,
    fun i hi => ⟨s1.2 i hi, s2.2 i hi, s3.2 i hi, s4.2 i hi, s5.2 i hi, s6.2 i hi, s7.2 i hi,
      s8.2 i hi, s9.2 i hi, s10.2 i hi, s11.2 i hi, s12.2 i hi, s13.2 i hi, s14.2 i hi,
      s15.2 i hi, s16.2 i hi⟩,
    fun hb hr => ?_⟩
  have hd0 : d = 0 := by
    rw [hr] at hd
    exact (Except.ok.inj hd).symm
  have hn0 : BeamDifficulty.BeamBitsToDifficulty share.blockbits = 0 := by
    rw [hb]
    rfl
  have a10 := s10.1
  have a16 := s16.1
  rw [hn0] at a10
  rw [hd0] at a16
  exact ⟨a10, a16⟩

theorem map_div_error (a b : Nat) (e : Fault)
    (h : (arith_uint256.div a b).map arith_uint256.getdouble = .error e) :
    e = .divisionByZero := by
  unfold arith_uint256.div at h
  by_cases hb : b = 0
  · rw [if_pos hb] at h
    exact (Except.error.inj h).symm
  · rw [if_neg hb] at h
    exact absurd h (by simp [Except.map])

theorem BitcoinStyle_error (v : Nat) (e : Fault)
    (h : BeamDifficulty.BitcoinStyleBitsToDifficulty v = .error e) : e = .divisionByZero := by
  unfold BeamDifficulty.BitcoinStyleBitsToDifficulty at h
  split at h
  · exact absurd h (by simp)
  · split at h
    · exact map_div_error _ _ e h
    · exact map_div_error _ _ e h

theorem addShare_error (w : ParquetWriterT) (hw : Ready w) (share : ShareBeam) (e : Fault)
    (he : BeamDifficulty.BitcoinStyleBitsToDifficulty share.bitsreached = .error e) :
    addShare w share = .error e := by
  have hc := hw.cursor
  unfold addShare store
  simp only [hw.indexs, hw.workerIds, hw.userIds, hw.status, hw.timestamps, hw.ip, hw.ipStr,
    hw.jobIds, hw.shareDiff, hw.networkDiff, hw.height, hw.nonce, hw.sessionId, hw.outputHash,
    hw.extUserId, hw.diffReached, hc, if_true, he, bind, Except.bind]

theorem addShares_cons_ok (w w1 : ParquetWriterT) (share : ShareBeam) (shares : List ShareBeam)
    (h : addShare w share = .ok w1) :
    addShares w (share :: shares) = addShares w1 shares := by
  simp only [addShares, List.foldlM_cons, h, bind, Except.bind]

theorem addShares_cons_error (w : ParquetWriterT) (share : ShareBeam) (shares : List ShareBeam)
    (e : Fault) (h : addShare w share = .error e) :
    addShares w (share :: shares) = .error e := by
  simp only [addShares, List.foldlM_cons, h, bind, Except.bind]

theorem addShares_outcome (shares : List ShareBeam) (w : ParquetWriterT) (hw : Ready w) :
    addShares w shares = .error .divisionByZero ∨
    ∃ w1, addShares w shares = .ok w1 ∧ ∀ share ∈ shares, Convertible share := by
  induction shares generalizing w with
  | nil => exact Or.inr ⟨w, rfl, fun _ h => absurd h (List.not_mem_nil _)⟩
  | cons share shares ih =>
    cases hconv : BeamDifficulty.BitcoinStyleBitsToDifficulty share.bitsreached with
    | error e =>
      have he := BitcoinStyle_error _ _ hconv
      subst he
      exact Or.inl (addShares_cons_error w share shares _ (addShare_error w hw share _ hconv))
    | ok d =>
      obtain ⟨w1, h1, hr1, _⟩ := addShare_step w hw share ⟨d, hconv⟩
      rw [addShares_cons_ok w w1 share shares h1]
      rcases ih w1 hr1 with h | ⟨w2, h2, hall⟩
      · exact Or.inl h
      · refine Or.inr ⟨w2, h2, fun s hs => ?_⟩
        rcases List.mem_cons.mp hs with h | h
        · exact h ▸ ⟨d, hconv⟩
        · exact hall s h

/-- Claim C18: in every state `w` reached from a fresh writer of capacity
`c ≥ 1` by a sequence of `addShare` calls, the cursor satisfies
`shareNum_ < c` and every column buffer has `c` elements (the state is
`Ready`), so the next `addShare` never writes outside a buffer, whatever the
record; every row group written by `flushShares` so far carries exactly `c`,
hence at most `c`, values per column.  No sequence of calls fails with an
access outside a buffer. -/
theorem C18_cursor_below_capacity (c : Nat) (hc : 1 ≤ c) (shares : List ShareBeam)
    (w : ParquetWriterT) (hrun : addShares (ParquetWriterT.new c) shares = .ok w) :
    Ready w ∧
    w.DEFAULT_NUM_ROWS_PER_ROW_GROUP = c ∧
    w.shareNum_ < c ∧
    (∀ share, addShare w share ≠ .error .outOfBounds) ∧
    (∀ g ∈ w.fileWriter_, ∀ col ∈ g, col.num_values ≤ c ∧ col.values.length ≤ c) ∧
    (∀ more : List ShareBeam, addShares (ParquetWriterT.new c) more ≠ .error .outOfBounds) := by
  have hnever : ∀ more : List ShareBeam,
      addShares (ParquetWriterT.new c) more ≠ .error .outOfBounds := by
    intro more h
    rcases addShares_outcome more (ParquetWriterT.new c) (Ready_new c hc) with h1 | ⟨w1, h1, _⟩
    · rw [h1] at h
      exact absurd h (by decide)
    · rw [h1] at h
      exact absurd h (by simp)
  rcases addShares_outcome shares (ParquetWriterT.new c) (Ready_new c hc) with h | ⟨w0, h0, hconv⟩
  · rw [h] at hrun
    exact absurd hrun (by simp)
  · obtain ⟨w1, h1, hr1, hcap, _, _, _, hg⟩ :=
      addShares_run shares (ParquetWriterT.new c) (Ready_new c hc) hconv
    have hw : w1 = w := by
      rw [h1] at hrun
      exact Except.ok.inj hrun
    subst hw
    have hcap2 : w1.DEFAULT_NUM_ROWS_PER_ROW_GROUP = c := hcap
    refine ⟨hr1, hcap2, by rw [← hcap2]; exact hr1.cursor, ?_, ?_, hnever⟩
    · intro share h
      cases hconv2 : BeamDifficulty.BitcoinStyleBitsToDifficulty share.bitsreached with
      | error e =>
        rw [addShare_error w1 hr1 share e hconv2] at h
        have := BitcoinStyle_error _ _ hconv2
        subst this
        exact absurd h (by decide)
      | ok d =>
        rw [addShare_eq w1 hr1 share d hconv2] at h
        exact absurd h (by simp)
    · intro g hgw col hcol
      rcases hg g hgw with h | h
      · simp [ParquetWriterT.new] at h
      · have := h.2.2.2 col hcol
        simp only [ParquetWriterT.new] at this
        omega

/-- Witness of claim C18: the state after three records at capacity 2. -/
theorem C18_cursor_below_capacity_witness :
    ∃ w, addShares (ParquetWriterT.new 2) [ShareBeam.new, fixtureShare, ShareBeam.new] = .ok w ∧
      w.shareNum_ < 2 :=
  (addShares_run [ShareBeam.new, fixtureShare, ShareBeam.new] (ParquetWriterT.new 2)
      (Ready_new 2 (by decide)) Convertible_fixtures).imp
    (fun w h => ⟨h.1, (C18_cursor_below_capacity 2 (by decide) _ w h.1).2.2.1⟩)

/-! ## Theorems: ParquetWriterT, a record whose conversion throws -/

theorem stored_of_thrown (w : ParquetWriterT) (share : ShareBeam) (d : Double) :
    stored w share d =
      { thrown w share with
        diffReached_ := (thrown w share).diffReached_.set w.shareNum_ d
        shareNum_ := (thrown w share).shareNum_ + 1 } := rfl

theorem Ready_thrown (w : ParquetWriterT) (hw : Ready w) (share : ShareBeam) :
    Ready (thrown w share) := by
  constructor <;> simp only [thrown, List.length_set]
  · exact hw.cursor
  · exact hw.indexs
  · exact hw.workerIds
  · exact hw.userIds
  · exact hw.status
  · exact hw.timestamps
  · exact hw.ip
  · exact hw.ipStr
  · exact hw.jobIds
  · exact hw.shareDiff
  · exact hw.networkDiff
  · exact hw.height
  · exact hw.nonce
  · exact hw.sessionId
  · exact hw.outputHash
  · exact hw.extUserId
  · exact hw.diffReached

theorem throwingShare_throws :
    BeamDifficulty.BitcoinStyleBitsToDifficulty throwingShare.bitsreached
      = .error .divisionByZero := by
  show BeamDifficulty.BitcoinStyleBitsToDifficulty 256 = .error .divisionByZero
  rw [BitcoinStyle_compact_eq 256 (by norm_num), SetCompact_256]
  rfl

theorem addShare_throwingShare (w : ParquetWriterT) (hw : Ready w) :
    addShare w throwingShare = .error .divisionByZero :=
  addShare_error w hw throwingShare _ throwingShare_throws

theorem addShare_new_first :
    addShare (ParquetWriterT.new 2) ShareBeam.new
      = .ok (stored (ParquetWriterT.new 2) ShareBeam.new 0) := by
  rw [addShare_eq (ParquetWriterT.new 2) (Ready_new 2 (by decide)) ShareBeam.new 0 rfl]
  rfl

/-- Claim C1, at the failing input of a fresh writer of capacity 2 and the two
records `ShareBeam()` and `throwingShare` (`bitsreached = 256`): the first call
of `addShare` returns, the second throws out of the conversion of
`bitsreached` before the cursor is advanced, the run of calls does not
return, and the destructor of the writer in the state of the throw emits one
row group with the row of the first record only: the second record is lost. -/
theorem C1_throwing_record_is_lost :
    addShare (ParquetWriterT.new 2) ShareBeam.new
      = .ok (stored (ParquetWriterT.new 2) ShareBeam.new 0) ∧
    addShare (stored (ParquetWriterT.new 2) ShareBeam.new 0) throwingShare
      = .error .divisionByZero ∧
    addShares (ParquetWriterT.new 2) [ShareBeam.new, throwingShare] = .error .divisionByZero ∧
    fileRows (destructor
        (thrown (stored (ParquetWriterT.new 2) ShareBeam.new 0) throwingShare)).fileWriter_
      = rowsOf 0 [ShareBeam.new] := by
  have hr1 : Ready (stored (ParquetWriterT.new 2) ShareBeam.new 0) :=
    Ready_stored _ (Ready_new 2 (by decide)) _ _ (by decide)
  have h2 := addShare_throwingShare _ hr1
  refine ⟨addShare_new_first, h2, ?_, ?_⟩
  · rw [addShares_cons_ok _ _ _ _ addShare_new_first]
    exact addShares_cons_error _ _ _ _ h2
  · rw [destructor_fileRows]
    unfold allRows
    rw [buffered_eq]
    simp [fileRows, RowGroup.rows, RowGroup.numRows, thrown, stored, ParquetWriterT.new,
      Values.cell?, rowsOf, rowOf, ShareBeam.new, throwingShare, List.range_succ,
      BeamDifficulty.BeamBitsToDifficulty, BeamDifficulty.BitcoinStyleBitsToDifficulty,
      Except.toOption]

/-- Claim C2, at the failing input of a fresh writer of capacity 2 and the
record `throwingShare` (`bitsreached = 256`) followed by `ShareBeam()`: the
first call of `addShare` throws after `++index_` and before `shareNum_++`, so
the counter is 1 and no row holds the index value 1; the next record, the
first one to get a row, is given the index value 2. -/
theorem C2_throwing_record_index_gap :
    addShare (ParquetWriterT.new 2) throwingShare = .error .divisionByZero ∧
    (thrown (ParquetWriterT.new 2) throwingShare).index_ = 1 ∧
    (thrown (ParquetWriterT.new 2) throwingShare).shareNum_ = 0 ∧
    (thrown (ParquetWriterT.new 2) throwingShare).fileWriter_ = [] ∧
    ∃ w, addShare (thrown (ParquetWriterT.new 2) throwingShare) ShareBeam.new = .ok w ∧
      w.index_ = 2 ∧
      (allRows w).map List.head? = [some (Cell.int64 2)] := by
  have hr0 : Ready (ParquetWriterT.new 2) := Ready_new 2 (by decide)
  have hrt := Ready_thrown _ hr0 throwingShare
  refine ⟨addShare_throwingShare _ hr0, rfl, rfl, rfl, ?_⟩
  obtain ⟨w, hrun, _, _, hidx, hrows, _, _⟩ :=
    addShare_step _ hrt ShareBeam.new Convertible_new
  refine ⟨w, hrun, by rw [hidx]; rfl, ?_⟩
  rw [hrows]
  have hall : allRows (thrown (ParquetWriterT.new 2) throwingShare) = [] := by
    unfold allRows
    rw [buffered_eq]
    simp [fileRows, RowGroup.rows, RowGroup.numRows, thrown, ParquetWriterT.new]
  rw [hall]
  simp [rowOf, thrown, ParquetWriterT.new]

/-- Claim C17, at the failing input of a fresh writer of capacity 2 (cursor 0,
below the capacity) and the record `throwingShare` (`bitsreached = 256`):
`addShare` throws out of `BitcoinStyleBitsToDifficulty`; in the state of the
throw slot 0 has its index value 1, no value has been assigned to
`diffReached_`, the cursor is not advanced and the writer holds no row: the
record gets no row with the values of the claim. -/
theorem C17_throwing_record_no_row :
    BeamDifficulty.BitcoinStyleBitsToDifficulty throwingShare.bitsreached
      = .error .divisionByZero ∧
    addShare (ParquetWriterT.new 2) throwingShare = .error .divisionByZero ∧
    (thrown (ParquetWriterT.new 2) throwingShare).indexs_[0]? = some 1 ∧
    (thrown (ParquetWriterT.new 2) throwingShare).diffReached_
      = (ParquetWriterT.new 2).diffReached_ ∧
    (thrown (ParquetWriterT.new 2) throwingShare).shareNum_ = 0 ∧
    (thrown (ParquetWriterT.new 2) throwingShare).buffered.rows = [] := by
  refine ⟨throwingShare_throws, addShare_throwingShare _ (Ready_new 2 (by decide)), rfl, rfl,
    rfl, ?_⟩
  apply List.eq_nil_of_length_eq_zero
  rw [buffered_rows_length]
  rfl

end StratumBeam
